import Mathlib

/-!
Verification development for the bitonic sort repository (sequential network,
OpenMP iterative network, and MPI distributed merge-split executors).

Arrays of C `int` are modelled as `List Int`; the sequential network is stated
generically over a linear order with an inhabitant (the C code only ever reads
in-bounds indices, so the `getD` default is never observable).  Loops are
modelled as folds or guarded well-founded recursion mirroring the C loop
structure.
-/

/-- `compare_and_swap` from the serial implementation (part_005 lines 100-109,
same code in mpi_bitonic.c lines 121-130): swap `arr[i]` and `arr[j]`
iff `(arr[i] > arr[j]) == ascending`. -/
def compare_and_swap {α : Type} [LinearOrder α] [Inhabited α]
    (arr : List α) (i j : Nat) (ascending : Bool) : List α :=
  if decide (arr.getD i default > arr.getD j default) = ascending then
    (arr.set i (arr.getD j default)).set j (arr.getD i default)
  else
    arr

/-- The `for (i = low; i < low + k; i++) compare_and_swap(arr, i, i + k, asc)`
loop at the head of `bitonic_merge` (part_005 lines 125-128). -/
def casLayer {α : Type} [LinearOrder α] [Inhabited α]
    (arr : List α) (low k : Nat) (ascending : Bool) : List α :=
  (List.range k).foldl (fun acc t => compare_and_swap acc (low + t) (low + t + k) ascending) arr

/-- `bitonic_merge` (part_005 lines 118-134): compare-exchange layer at stride
`count/2`, then recursively merge the two halves. -/
def bitonic_merge {α : Type} [LinearOrder α] [Inhabited α]
    (arr : List α) (low count : Nat) (ascending : Bool) : List α :=
  if 1 < count then
    let k := count / 2
    let a1 := casLayer arr low k ascending
    let a2 := bitonic_merge a1 low k ascending
    bitonic_merge a2 (low + k) k ascending
  else
    arr
termination_by count
decreasing_by
  all_goals omega

/-- `bitonic_sort_recursive` (part_005 lines 143-158): sort the first half
ascending, the second half descending, then merge in the requested
direction. -/
def bitonic_sort_recursive {α : Type} [LinearOrder α] [Inhabited α]
    (arr : List α) (low count : Nat) (ascending : Bool) : List α :=
  if 1 < count then
    let k := count / 2
    let a1 := bitonic_sort_recursive arr low k true
    let a2 := bitonic_sort_recursive a1 (low + k) k false
    bitonic_merge a2 low count ascending
  else
    arr
termination_by count
decreasing_by
  all_goals omega

/-- `bitonic_sort` (part_005 lines 165-168): full ascending sort. -/
def bitonic_sort {α : Type} [LinearOrder α] [Inhabited α]
    (arr : List α) (size : Nat) : List α :=
  bitonic_sort_recursive arr 0 size true

/-- Body of the `#pragma omp parallel for` loop of `bitonic_sort` in
bitonic_openmp.c lines 98-111: one compare-exchange at `(i, i XOR j)` with
direction `(i AND k) == 0`, guarded by `ixj > i`.  The iterations touch
pairwise disjoint index pairs, so the parallel loop is modelled by its
sequential execution. -/
def ompInner {α : Type} [LinearOrder α] [Inhabited α]
    (data : List α) (k j : Nat) (i : Nat) : List α :=
  let ixj := i ^^^ j
  if i < ixj then
    let ascending := decide ((i &&& k) = 0)
    if decide (data.getD i default > data.getD ixj default) = ascending then
      (data.set i (data.getD ixj default)).set ixj (data.getD i default)
    else
      data
  else
    data

/-- The `for (i = 0; i < n; ++i)` loop of bitonic_openmp.c `bitonic_sort`. -/
def ompPass {α : Type} [LinearOrder α] [Inhabited α]
    (data : List α) (n k j : Nat) : List α :=
  (List.range n).foldl (fun acc i => ompInner acc k j i) data

/-- The `for (j = k >> 1; j > 0; j >>= 1)` loop of bitonic_openmp.c
`bitonic_sort` lines 95-112. -/
def ompJLoop {α : Type} [LinearOrder α] [Inhabited α]
    (data : List α) (n k j : Nat) : List α :=
  if 0 < j then
    ompJLoop (ompPass data n k j) n k (j / 2)
  else
    data
termination_by j
decreasing_by
  all_goals omega

/-- The `for (k = 2; k <= n; k <<= 1)` loop of bitonic_openmp.c `bitonic_sort`
lines 93-113.  The loop variable doubles, so the recursion is well-founded on
`n + 1 - k`; the extra `0 < k` guard only discharges termination (the loop is
entered at `k = 2` and `k` doubles, so `0 < k` always holds on reachable
inputs, and at `k = 0` the C loop would not progress either way). -/
def ompKLoop {α : Type} [LinearOrder α] [Inhabited α]
    (data : List α) (n k : Nat) : List α :=
  if 0 < k ∧ k ≤ n then
    ompKLoop (ompJLoop data n k (k / 2)) n (2 * k)
  else
    data
termination_by n + 1 - k
decreasing_by
  all_goals omega

/-- `bitonic_sort` from bitonic_openmp.c lines 91-114 (iterative index-based
network).  Renamed to avoid clashing with the serial `bitonic_sort`. -/
def bitonic_sort_openmp {α : Type} [LinearOrder α] [Inhabited α]
    (data : List α) (n : Nat) : List α :=
  ompKLoop data n 2

/-- The `while (p < n) p <<= 1` loop of `next_power_of_two`
(part_004 lines 6-14, bitonic_openmp.c lines 6-14).  The extra `0 < p` guard
only discharges termination: the loop is entered at `p = 1` and `p` doubles,
so `0 < p` always holds on reachable inputs. -/
def nptLoop (n p : Nat) : Nat :=
  if p < n ∧ 0 < p then
    nptLoop n (2 * p)
  else
    p
termination_by n - p
decreasing_by
  all_goals omega

/-- `next_power_of_two` (part_004 lines 6-14). -/
def next_power_of_two (n : Nat) : Nat :=
  nptLoop n 1

/-- The `while (padded_count % world_size != 0) padded_count <<= 1` loop of
the rank-0 partitioner (part_004 lines 195-198).  The extra `padded < P`
bound only discharges termination; on the reachable inputs (`padded` a power
of two produced by `next_power_of_two`, `P` the power-of-two worker count)
the loop body never runs with `padded ≥ P`, because then `P` already divides
`padded`. -/
def padLoop (P padded : Nat) : Nat :=
  if h : padded % P ≠ 0 ∧ padded < P then
    padLoop P (2 * padded)
  else
    padded
termination_by P - padded
decreasing_by
  all_goals
    (simp_wf
     have hp : padded ≠ 0 := by
       intro h0
       exact h.1 (by simp [h0])
     omega)

/-- The padded size computed by rank 0 in part_004 `main` lines 194-198:
`next_power_of_two` followed by doubling until divisible by the worker
count. -/
def padded_size (L P : Nat) : Nat :=
  padLoop P (next_power_of_two L)

/-- `INT_MAX`, the padding sentinel used by the file-driven executables. -/
def INT_MAX : Int := 2147483647

/-- The two-pointer merge of two sorted buffers used by `merge_exchange`
(part_004 lines 99-114) and `optimized_merge_split` (mpi_bitonic.c lines
237-256): take from `local` on ties, then drain the remainders. -/
def twoPointerMerge {α : Type} [LinearOrder α] : List α → List α → List α
  | [], ys => ys
  | x :: xs, [] => x :: xs
  | x :: xs, y :: ys =>
    if x ≤ y then
      x :: twoPointerMerge xs (y :: ys)
    else
      y :: twoPointerMerge (x :: xs) ys

/-- `merge_exchange` (part_004 lines 85-133, first program): merge the local
block with the partner's block, then keep the smaller half (`merged[0..n)`)
when `ascending` and the larger half (`merged[n..2n)`) otherwise.  The keep
rule depends only on the `ascending` flag, not on the ranks. -/
def merge_exchange {α : Type} [LinearOrder α]
    (local_n : Nat) (locBlk recvBlk : List α) (ascending : Bool) : List α :=
  let merged := twoPointerMerge locBlk recvBlk
  if ascending then
    merged.take local_n
  else
    merged.drop local_n

/-- One simultaneous exchange round of `distributed_bitonic` (part_004 lines
139-144): every rank sends its block to `partner = rank XOR j` (MPI_Sendrecv)
and keeps a half of the merged pair per `ascending = ((rank & k) == 0)`.
Blocks are indexed by rank. -/
def exchangeRound {α : Type} [LinearOrder α]
    (blocks : List (List α)) (local_n j k : Nat) : List (List α) :=
  (List.range blocks.length).map fun rank =>
    merge_exchange local_n (blocks.getD rank []) (blocks.getD (rank ^^^ j) [])
      (decide ((rank &&& k) = 0))

/-- The `for (j = k >> 1; j > 0; j >>= 1)` loop of `distributed_bitonic`
(part_004 lines 139-145). -/
def dbJLoop {α : Type} [LinearOrder α]
    (blocks : List (List α)) (local_n k j : Nat) : List (List α) :=
  if 0 < j then
    dbJLoop (exchangeRound blocks local_n j k) local_n k (j / 2)
  else
    blocks
termination_by j
decreasing_by
  all_goals omega

/-- The `for (k = 2; k <= world_size; k <<= 1)` loop of `distributed_bitonic`
(part_004 lines 137-146).  As for `ompKLoop`, the `0 < k` guard only
discharges termination. -/
def dbKLoop {α : Type} [LinearOrder α]
    (blocks : List (List α)) (local_n world_size k : Nat) : List (List α) :=
  if 0 < k ∧ k ≤ world_size then
    dbKLoop (dbJLoop blocks local_n k (k / 2)) local_n world_size (2 * k)
  else
    blocks
termination_by world_size + 1 - k
decreasing_by
  all_goals omega

/-- `distributed_bitonic` (part_004 lines 135-146), modelled as a global
transition on the vector of all ranks' blocks. -/
def distributed_bitonic {α : Type} [LinearOrder α]
    (blocks : List (List α)) (local_n world_size : Nat) : List (List α) :=
  dbKLoop blocks local_n world_size 2

/-- `optimized_merge_split` (mpi_bitonic.c lines 208-273): merge own block
with the partner's, then keep the smaller half iff
`(my_rank < partner && ascending) || (my_rank > partner && !ascending)`,
else the larger half. -/
def optimized_merge_split {α : Type} [LinearOrder α]
    (size : Nat) (arr recvBlk : List α) (my_rank partner : Nat) (ascending : Bool) : List α :=
  let merged := twoPointerMerge arr recvBlk
  if (my_rank < partner ∧ ascending = true) ∨ (partner < my_rank ∧ ascending = false) then
    merged.take size
  else
    merged.drop size

/-- One simultaneous round of the Phase-2 loop of `advanced_bitonic_sort_mpi`
(mpi_bitonic.c lines 294-313): `partner = rank XOR step`, guarded by
`partner < num_procs`, with `ascending = ((rank & stage) == 0)`. -/
def mpiRound {α : Type} [LinearOrder α]
    (blocks : List (List α)) (local_size step stage : Nat) : List (List α) :=
  (List.range blocks.length).map fun rank =>
    let partner := rank ^^^ step
    if partner < blocks.length then
      optimized_merge_split local_size (blocks.getD rank []) (blocks.getD partner [])
        rank partner (decide ((rank &&& stage) = 0))
    else
      blocks.getD rank []

/-- The `for (step = stage; step > 0; step /= 2)` loop of
`advanced_bitonic_sort_mpi` (mpi_bitonic.c lines 294-313). -/
def mpiStepLoop {α : Type} [LinearOrder α]
    (blocks : List (List α)) (local_size stage step : Nat) : List (List α) :=
  if 0 < step then
    mpiStepLoop (mpiRound blocks local_size step stage) local_size stage (step / 2)
  else
    blocks
termination_by step
decreasing_by
  all_goals omega

/-- The `for (stage = 1; stage < num_procs; stage *= 2)` loop of
`advanced_bitonic_sort_mpi` (mpi_bitonic.c lines 292-314).  As for
`ompKLoop`, the `0 < stage` guard only discharges termination. -/
def mpiStageLoop {α : Type} [LinearOrder α]
    (blocks : List (List α)) (local_size num_procs stage : Nat) : List (List α) :=
  if 0 < stage ∧ stage < num_procs then
    mpiStageLoop (mpiStepLoop blocks local_size stage stage) local_size num_procs (2 * stage)
  else
    blocks
termination_by num_procs - stage
decreasing_by
  all_goals omega

/-- Phase 2 (the hypercube exchange phase) of `advanced_bitonic_sort_mpi`. -/
def mpi_exchange_phase {α : Type} [LinearOrder α]
    (blocks : List (List α)) (local_size num_procs : Nat) : List (List α) :=
  mpiStageLoop blocks local_size num_procs 1

/-- `advanced_bitonic_sort_mpi` (mpi_bitonic.c lines 284-323): Phase 1 sorts
each rank's block locally with `bitonic_sort_local` (the recursive network,
ascending), Phase 2 runs the stage/step exchange rounds. -/
def advanced_bitonic_sort_mpi {α : Type} [LinearOrder α] [Inhabited α]
    (blocks : List (List α)) (local_size num_procs : Nat) : List (List α) :=
  mpi_exchange_phase (blocks.map fun b => bitonic_sort b local_size) local_size num_procs

/-- `MPI_Scatter`: rank `r` receives the contiguous slice
`data[r * local_n .. (r+1) * local_n)`. -/
def scatterBlocks {α : Type} (data : List α) (P local_n : Nat) : List (List α) :=
  (List.range P).map fun r => (data.drop (r * local_n)).take local_n

/-- Model of libc `qsort` with the `int_compare` comparator (part_004 lines
16-25, 231): sorts the buffer ascending.  `qsort` is an external library
routine, so it is modelled by its contract via a structurally recursive
sort. -/
def qsortModel (l : List Int) : List Int :=
  l.insertionSort (fun a b => a ≤ b)

/-- The padding performed by rank 0 in part_004 `main` lines 194-213:
extend with `INT_MAX` up to `padded_size`. -/
def padWithSentinel (values : List Int) (size : Nat) : List Int :=
  values ++ List.replicate (size - values.length) INT_MAX

/-- End-to-end model of the first part_004 MPI program's data path (lines
184-253): read `values`, pad to a power of two divisible by `world_size`,
scatter, `qsort` each block, run `distributed_bitonic`, gather in rank order,
and write the first `original_count` entries. -/
def mpi_v1_main (values : List Int) (world_size : Nat) : List Int :=
  let original_count := values.length
  let padded_count := padded_size original_count world_size
  let global_data := padWithSentinel values padded_count
  let local_n := padded_count / world_size
  let blocks := (scatterBlocks global_data world_size local_n).map qsortModel
  let sorted_blocks := distributed_bitonic blocks local_n world_size
  (sorted_blocks.flatten).take original_count

/-- End-to-end model of the bitonic_openmp.c `main` data path (lines
116-160): reject an empty dataset, otherwise pad to the next power of two
with `INT_MAX`, run the iterative `bitonic_sort`, and write the first
`count` entries. -/
def openmp_main (values : List Int) : Option (List Int) :=
  let count := values.length
  if count = 0 then
    none
  else
    let padded := next_power_of_two count
    let arr := padWithSentinel values padded
    some ((bitonic_sort_openmp arr padded).take count)

/-- The validation test in mpi_bitonic.c `main` lines 357-367: the program
proceeds only when the size is positive, size and process count are powers
of two (via the `n & (n-1)` bit trick), and the size is divisible by the
process count. -/
def mpi_validate (total_size num_procs : Nat) : Bool :=
  !(total_size = 0 ∨ (total_size &&& (total_size - 1)) ≠ 0 ∨
    (num_procs &&& (num_procs - 1)) ≠ 0 ∨ total_size % num_procs ≠ 0 : Bool)

/-- The validation test in openmp_bitonic.c `main` lines 311-315. -/
def openmp_bitonic_validate (size : Nat) : Bool :=
  !(size = 0 ∨ (size &&& (size - 1)) ≠ 0 : Bool)

/-- Adjacent-pair monotonicity of the segment `[low, low+count)`, in the
direction selected by `ascending` — the sortedness property of spec §8. -/
abbrev SegmentMonotone {α : Type} [LinearOrder α] [Inhabited α]
    (l : List α) (low count : Nat) (ascending : Bool) : Prop :=
  ∀ t, t + 1 < count →
    (if ascending then l.getD (low + t) default ≤ l.getD (low + t + 1) default
     else l.getD (low + t + 1) default ≤ l.getD (low + t) default)

/-- A Boolean segment whose `true` entries form exactly the index interval
`[a, b)` (relative to `low`). -/
abbrev SegOnes (l : List Bool) (low count a b : Nat) : Prop :=
  ∀ t, t < count → l.getD (low + t) false = decide (a ≤ t ∧ t < b)

/-- A Boolean segment whose `false` entries form exactly the index interval
`[a, b)` (relative to `low`): the complement of `SegOnes`. -/
abbrev SegZerosInt (l : List Bool) (low count a b : Nat) : Prop :=
  ∀ t, t < count → l.getD (low + t) false = !decide (a ≤ t ∧ t < b)

/-- Bitonic Boolean segment: the `true` entries form an interval or the
complement of an interval (equivalently, a cyclic rotation of an
ascending-then-descending 0-1 pattern). -/
abbrev SegBitonic (l : List Bool) (low count : Nat) : Prop :=
  (∃ a b, SegOnes l low count a b) ∨ (∃ a b, SegZerosInt l low count a b)

/-- Sorted-ascending Boolean segment: zeros then ones. -/
abbrev SegSortedAscB (l : List Bool) (low count : Nat) : Prop :=
  ∃ a, SegOnes l low count a count

/-- Sorted-descending Boolean segment: ones then zeros. -/
abbrev SegSortedDescB (l : List Bool) (low count : Nat) : Prop :=
  ∃ b, SegOnes l low count 0 b

/-- The `step = stage, stage/2, ..., 1` inner round list of spec §4.3
Phase 2. -/
def specSteps (stage : Nat) : List Nat :=
  if 0 < stage then
    stage :: specSteps (stage / 2)
  else
    []
termination_by stage
decreasing_by
  all_goals omega

/-- The `stage = 1, 2, 4, ... while stage < world_size` outer list of spec
§4.3 Phase 2 (the `0 < stage` guard only discharges termination, as the
sequence starts at 1). -/
def specStages (P stage : Nat) : List Nat :=
  if 0 < stage ∧ stage < P then
    stage :: specStages P (2 * stage)
  else
    []
termination_by P - stage
decreasing_by
  all_goals omega

/-- The full `(stage, step)` round sequence claimed by spec §4.3 Phase 2. -/
def specRounds (P : Nat) : List (Nat × Nat) :=
  (specStages P 1).flatMap fun s => (specSteps s).map fun t => (s, t)

/-- One part_004-style exchange round with an arbitrary per-rank direction
predicate (used to compare the executor against the spec's round list). -/
def roundWithDir {α : Type} [LinearOrder α]
    (blocks : List (List α)) (local_n j : Nat) (dir : Nat → Bool) : List (List α) :=
  (List.range blocks.length).map fun rank =>
    merge_exchange local_n (blocks.getD rank []) (blocks.getD (rank ^^^ j) []) (dir rank)

/-- Run a list of `(stage, step)` rounds through part_004's `merge_exchange`,
with the round direction given by `dir rank stage`. -/
def runRoundsV1 {α : Type} [LinearOrder α]
    (blocks : List (List α)) (local_n : Nat) (rounds : List (Nat × Nat))
    (dir : Nat → Nat → Bool) : List (List α) :=
  rounds.foldl (fun bs r => roundWithDir bs local_n r.2 (fun rank => dir rank r.1)) blocks

/-- One mpi_bitonic.c-style exchange round with an arbitrary per-rank
direction predicate. -/
def mpiRoundWithDir {α : Type} [LinearOrder α]
    (blocks : List (List α)) (local_size step : Nat) (dir : Nat → Bool) : List (List α) :=
  (List.range blocks.length).map fun rank =>
    let partner := rank ^^^ step
    if partner < blocks.length then
      optimized_merge_split local_size (blocks.getD rank []) (blocks.getD partner [])
        rank partner (dir rank)
    else
      blocks.getD rank []

/-- Run a list of `(stage, step)` rounds through mpi_bitonic.c's
`optimized_merge_split`, with the round direction given by `dir rank stage`. -/
def runRoundsMpi {α : Type} [LinearOrder α]
    (blocks : List (List α)) (local_size : Nat) (rounds : List (Nat × Nat))
    (dir : Nat → Nat → Bool) : List (List α) :=
  rounds.foldl (fun bs r => mpiRoundWithDir bs local_size r.2 (fun rank => dir rank r.1)) blocks

/-- Prefix of the compare-exchange layer: the first `s` iterations of the
`for` loop in `bitonic_merge` (helper for reasoning about `casLayer`). -/
def casSeq {α : Type} [LinearOrder α] [Inhabited α]
    (arr : List α) (low k : Nat) (ascending : Bool) (s : Nat) : List α :=
  (List.range s).foldl (fun acc t => compare_and_swap acc (low + t) (low + t + k) ascending) arr

/-- The contiguous segment `l[low .. low+count)` as a list (helper for
segment-local reasoning). -/
def segSlice {α : Type} (l : List α) (low count : Nat) : List α :=
  (l.drop low).take count

section BasicLemmas

theorem getD_set_ne {α : Type} (l : List α) (i p : Nat) (v d : α) (h : i ≠ p) :
    (l.set i v).getD p d = l.getD p d := by
  by_cases hp : p < l.length
  · rw [List.getD_eq_getElem _ _ (by simpa using hp), List.getD_eq_getElem _ _ hp,
      List.getElem_set]
    simp [h]
  · rw [List.getD_eq_default _ _ (by simpa using Nat.le_of_not_lt hp),
      List.getD_eq_default _ _ (Nat.le_of_not_lt hp)]

theorem getD_set_self {α : Type} (l : List α) (i : Nat) (v d : α) (h : i < l.length) :
    (l.set i v).getD i d = v := by
  rw [List.getD_eq_getElem _ _ (by simpa using h), List.getElem_set]
  simp

variable {α : Type} [LinearOrder α] [Inhabited α]

theorem length_compare_and_swap (arr : List α) (i j : Nat) (asc : Bool) :
    (compare_and_swap arr i j asc).length = arr.length := by
  unfold compare_and_swap
  split <;> simp

theorem compare_and_swap_getD_outside (arr : List α) (i j p : Nat) (asc : Bool) (d : α)
    (hpi : p ≠ i) (hpj : p ≠ j) :
    (compare_and_swap arr i j asc).getD p d = arr.getD p d := by
  unfold compare_and_swap
  split
  · rw [getD_set_ne _ _ _ _ _ (Ne.symm hpj), getD_set_ne _ _ _ _ _ (Ne.symm hpi)]
  · rfl

theorem compare_and_swap_getD_fst (arr : List α) (i j : Nat) (asc : Bool) (d : α)
    (hij : i ≠ j) (hi : i < arr.length) (hj : j < arr.length) :
    (compare_and_swap arr i j asc).getD i d =
      (if asc = true then min (arr.getD i d) (arr.getD j d)
       else max (arr.getD i d) (arr.getD j d)) := by
  have hlen : (compare_and_swap arr i j asc).length = arr.length :=
    length_compare_and_swap arr i j asc
  rw [List.getD_eq_getElem _ _ (by rw [hlen]; exact hi)]
  simp only [List.getD_eq_getElem _ _ hi, List.getD_eq_getElem _ _ hj]
  unfold compare_and_swap
  simp only [List.getD_eq_getElem _ _ hi, List.getD_eq_getElem _ _ hj]
  rcases asc with _ | _ <;> split
  · simp only [List.getElem_set, hij, if_neg (Ne.symm hij), if_pos rfl, if_neg hij]
    rename_i h
    rw [decide_eq_false_iff_not] at h
    exact (max_eq_right (le_of_not_lt h)).symm
  · rename_i h
    rw [Bool.not_eq_false, decide_eq_true_eq] at h
    exact (max_eq_left (le_of_lt h)).symm
  · simp only [List.getElem_set, hij, if_neg (Ne.symm hij), if_pos rfl, if_neg hij]
    rename_i h
    rw [decide_eq_true_eq] at h
    exact (min_eq_right (le_of_lt h)).symm
  · rename_i h
    rw [Bool.not_eq_true, decide_eq_false_iff_not] at h
    exact (min_eq_left (le_of_not_lt h)).symm

theorem compare_and_swap_getD_snd (arr : List α) (i j : Nat) (asc : Bool) (d : α)
    (_hij : i ≠ j) (hi : i < arr.length) (hj : j < arr.length) :
    (compare_and_swap arr i j asc).getD j d =
      (if asc = true then max (arr.getD i d) (arr.getD j d)
       else min (arr.getD i d) (arr.getD j d)) := by
  have hlen : (compare_and_swap arr i j asc).length = arr.length :=
    length_compare_and_swap arr i j asc
  rw [List.getD_eq_getElem _ _ (by rw [hlen]; exact hj)]
  simp only [List.getD_eq_getElem _ _ hi, List.getD_eq_getElem _ _ hj]
  unfold compare_and_swap
  simp only [List.getD_eq_getElem _ _ hi, List.getD_eq_getElem _ _ hj]
  rcases asc with _ | _ <;> split
  · simp only [List.getElem_set, if_pos rfl]
    rename_i h
    rw [decide_eq_false_iff_not] at h
    exact (min_eq_left (le_of_not_lt h)).symm
  · rename_i h
    rw [Bool.not_eq_false, decide_eq_true_eq] at h
    exact (min_eq_right (le_of_lt h)).symm
  · simp only [List.getElem_set, if_pos rfl]
    rename_i h
    rw [decide_eq_true_eq] at h
    exact (max_eq_left (le_of_lt h)).symm
  · rename_i h
    rw [Bool.not_eq_true, decide_eq_false_iff_not] at h
    exact (max_eq_right (le_of_not_lt h)).symm

end BasicLemmas

section LayerLemmas

variable {α : Type} [LinearOrder α] [Inhabited α]

theorem casSeq_zero (arr : List α) (low k : Nat) (asc : Bool) :
    casSeq arr low k asc 0 = arr := rfl

theorem casSeq_succ (arr : List α) (low k : Nat) (asc : Bool) (s : Nat) :
    casSeq arr low k asc (s + 1) =
      compare_and_swap (casSeq arr low k asc s) (low + s) (low + s + k) asc := by
  unfold casSeq
  rw [List.range_succ, List.foldl_append]
  rfl

theorem casLayer_eq_casSeq (arr : List α) (low k : Nat) (asc : Bool) :
    casLayer arr low k asc = casSeq arr low k asc k := rfl

theorem length_casSeq (arr : List α) (low k : Nat) (asc : Bool) (s : Nat) :
    (casSeq arr low k asc s).length = arr.length := by
  induction s with
  | zero => rfl
  | succ s ih => rw [casSeq_succ, length_compare_and_swap, ih]

theorem casSeq_getD_untouched (arr : List α) (low k : Nat) (asc : Bool) (s : Nat)
    (p : Nat) (d : α) (hp : ∀ t, t < s → p ≠ low + t ∧ p ≠ low + t + k) :
    (casSeq arr low k asc s).getD p d = arr.getD p d := by
  induction s with
  | zero => rfl
  | succ s ih =>
    rw [casSeq_succ,
      compare_and_swap_getD_outside _ _ _ _ _ _ (hp s (Nat.lt_succ_self s)).1
        (hp s (Nat.lt_succ_self s)).2,
      ih (fun t ht => hp t (Nat.lt_succ_of_lt ht))]

theorem casSeq_getD_fst (arr : List α) (low k : Nat) (asc : Bool) (s : Nat)
    (t : Nat) (d : α) (ht : t < s) (hs : s ≤ k) (hlen : low + k + k ≤ arr.length) :
    (casSeq arr low k asc s).getD (low + t) d =
      (if asc = true then min (arr.getD (low + t) d) (arr.getD (low + t + k) d)
       else max (arr.getD (low + t) d) (arr.getD (low + t + k) d)) := by
  induction s with
  | zero => omega
  | succ s ih =>
    rw [casSeq_succ]
    rcases Nat.lt_or_ge t s with hts | hts
    · rw [compare_and_swap_getD_outside _ _ _ _ _ _ (by omega) (by omega)]
      exact ih hts (by omega)
    · have hteq : t = s := by omega
      subst hteq
      rw [compare_and_swap_getD_fst _ _ _ _ _ (by omega)
          (by rw [length_casSeq]; omega) (by rw [length_casSeq]; omega),
        casSeq_getD_untouched _ _ _ _ _ _ _ (by intro u hu; omega),
        casSeq_getD_untouched _ _ _ _ _ _ _ (by intro u hu; omega)]

theorem casSeq_getD_snd (arr : List α) (low k : Nat) (asc : Bool) (s : Nat)
    (t : Nat) (d : α) (ht : t < s) (hs : s ≤ k) (hlen : low + k + k ≤ arr.length) :
    (casSeq arr low k asc s).getD (low + t + k) d =
      (if asc = true then max (arr.getD (low + t) d) (arr.getD (low + t + k) d)
       else min (arr.getD (low + t) d) (arr.getD (low + t + k) d)) := by
  induction s with
  | zero => omega
  | succ s ih =>
    rw [casSeq_succ]
    rcases Nat.lt_or_ge t s with hts | hts
    · rw [compare_and_swap_getD_outside _ _ _ _ _ _ (by omega) (by omega)]
      exact ih hts (by omega)
    · have hteq : t = s := by omega
      subst hteq
      rw [compare_and_swap_getD_snd _ _ _ _ _ (by omega)
          (by rw [length_casSeq]; omega) (by rw [length_casSeq]; omega),
        casSeq_getD_untouched _ _ _ _ _ _ _ (by intro u hu; omega),
        casSeq_getD_untouched _ _ _ _ _ _ _ (by intro u hu; omega)]

theorem length_casLayer (arr : List α) (low k : Nat) (asc : Bool) :
    (casLayer arr low k asc).length = arr.length := by
  rw [casLayer_eq_casSeq, length_casSeq]

theorem casLayer_getD_fst (arr : List α) (low k : Nat) (asc : Bool)
    (t : Nat) (d : α) (ht : t < k) (hlen : low + k + k ≤ arr.length) :
    (casLayer arr low k asc).getD (low + t) d =
      (if asc = true then min (arr.getD (low + t) d) (arr.getD (low + t + k) d)
       else max (arr.getD (low + t) d) (arr.getD (low + t + k) d)) := by
  rw [casLayer_eq_casSeq]
  exact casSeq_getD_fst arr low k asc k t d ht (Nat.le_refl k) hlen

theorem casLayer_getD_snd (arr : List α) (low k : Nat) (asc : Bool)
    (t : Nat) (d : α) (ht : t < k) (hlen : low + k + k ≤ arr.length) :
    (casLayer arr low k asc).getD (low + t + k) d =
      (if asc = true then max (arr.getD (low + t) d) (arr.getD (low + t + k) d)
       else min (arr.getD (low + t) d) (arr.getD (low + t + k) d)) := by
  rw [casLayer_eq_casSeq]
  exact casSeq_getD_snd arr low k asc k t d ht (Nat.le_refl k) hlen

theorem casLayer_getD_outside (arr : List α) (low k : Nat) (asc : Bool)
    (p : Nat) (d : α) (hp : p < low ∨ low + k + k ≤ p) :
    (casLayer arr low k asc).getD p d = arr.getD p d := by
  rw [casLayer_eq_casSeq]
  exact casSeq_getD_untouched arr low k asc k p d (by intro t ht; omega)

omit [Inhabited α] in
theorem count_set_balance (l : List α) (i : Nat) (a : α) (h : i < l.length) (v : α) :
    (l.set i a).count v + (if l[i] = v then 1 else 0) =
      l.count v + (if a = v then 1 else 0) := by
  have hdecomp : l.take i ++ l[i] :: l.drop (i + 1) = l := by
    rw [List.getElem_cons_drop, List.take_append_drop]
  rw [List.set_eq_take_cons_drop a h]
  conv_rhs => rw [← hdecomp]
  simp only [List.count_append, List.count_cons, beq_iff_eq]
  split_ifs <;> omega

theorem compare_and_swap_perm (arr : List α) (i j : Nat) (asc : Bool)
    (hi : i < arr.length) (hj : j < arr.length) :
    (compare_and_swap arr i j asc).Perm arr := by
  unfold compare_and_swap
  split
  · rw [List.getD_eq_getElem _ _ hi, List.getD_eq_getElem _ _ hj]
    rw [List.perm_iff_count]
    intro v
    have hj' : j < (arr.set i arr[j]).length := by simpa using hj
    have h1 := count_set_balance (arr.set i arr[j]) j arr[i] hj' v
    have h2 := count_set_balance arr i arr[j] hi v
    have h3 : (arr.set i arr[j])[j] = arr[j] := by
      rw [List.getElem_set]
      split <;> simp_all
    rw [h3] at h1
    split_ifs at h1 h2 <;> omega
  · exact List.Perm.refl arr

theorem casSeq_perm (arr : List α) (low k : Nat) (asc : Bool) (s : Nat)
    (hs : s ≤ k) (hlen : low + k + k ≤ arr.length) :
    (casSeq arr low k asc s).Perm arr := by
  induction s with
  | zero => exact List.Perm.refl arr
  | succ s ih =>
    rw [casSeq_succ]
    exact ((compare_and_swap_perm _ _ _ _
      (by rw [length_casSeq]; omega) (by rw [length_casSeq]; omega)).trans
      (ih (by omega)))

theorem casLayer_perm (arr : List α) (low k : Nat) (asc : Bool)
    (hlen : low + k + k ≤ arr.length) :
    (casLayer arr low k asc).Perm arr := by
  rw [casLayer_eq_casSeq]
  exact casSeq_perm arr low k asc k (Nat.le_refl k) hlen

theorem length_bitonic_merge (count : Nat) :
    ∀ (arr : List α) (low : Nat) (asc : Bool),
      (bitonic_merge arr low count asc).length = arr.length := by
  induction count using Nat.strong_induction_on with
  | _ count ih =>
    intro arr low asc
    rw [bitonic_merge]
    split
    · dsimp only
      rw [ih _ (by omega), ih _ (by omega), length_casLayer]
    · rfl

theorem bitonic_merge_getD_outside (count : Nat) :
    ∀ (arr : List α) (low : Nat) (asc : Bool) (p : Nat) (d : α),
      (p < low ∨ low + count ≤ p) →
      (bitonic_merge arr low count asc).getD p d = arr.getD p d := by
  induction count using Nat.strong_induction_on with
  | _ count ih =>
    intro arr low asc p d hp
    rw [bitonic_merge]
    split
    · rename_i h
      dsimp only
      rw [ih _ (by omega) _ _ _ _ _ (by omega), ih _ (by omega) _ _ _ _ _ (by omega),
        casLayer_getD_outside _ _ _ _ _ _ (by omega)]
    · rfl

theorem bitonic_merge_perm (count : Nat) :
    ∀ (arr : List α) (low : Nat) (asc : Bool), low + count ≤ arr.length →
      (bitonic_merge arr low count asc).Perm arr := by
  induction count using Nat.strong_induction_on with
  | _ count ih =>
    intro arr low asc hlen
    rw [bitonic_merge]
    split
    · rename_i h
      dsimp only
      have hl1 : (casLayer arr low (count / 2) asc).length = arr.length :=
        length_casLayer _ _ _ _
      have hl2 : (bitonic_merge (casLayer arr low (count / 2) asc) low (count / 2) asc).length
          = arr.length := by
        rw [length_bitonic_merge, hl1]
      exact ((ih _ (by omega) _ _ _ (by omega)).trans
        ((ih _ (by omega) _ _ _ (by omega)).trans
          (casLayer_perm _ _ _ _ (by omega))))
    · exact List.Perm.refl arr

theorem length_bitonic_sort_recursive (count : Nat) :
    ∀ (arr : List α) (low : Nat) (asc : Bool),
      (bitonic_sort_recursive arr low count asc).length = arr.length := by
  induction count using Nat.strong_induction_on with
  | _ count ih =>
    intro arr low asc
    rw [bitonic_sort_recursive]
    split
    · dsimp only
      rw [length_bitonic_merge, ih _ (by omega), ih _ (by omega)]
    · rfl

theorem bitonic_sort_recursive_getD_outside (count : Nat) :
    ∀ (arr : List α) (low : Nat) (asc : Bool) (p : Nat) (d : α),
      (p < low ∨ low + count ≤ p) →
      (bitonic_sort_recursive arr low count asc).getD p d = arr.getD p d := by
  induction count using Nat.strong_induction_on with
  | _ count ih =>
    intro arr low asc p d hp
    rw [bitonic_sort_recursive]
    split
    · rename_i h
      dsimp only
      rw [bitonic_merge_getD_outside _ _ _ _ _ _ (by omega),
        ih _ (by omega) _ _ _ _ _ (by omega), ih _ (by omega) _ _ _ _ _ (by omega)]
    · rfl

theorem bitonic_sort_recursive_perm (count : Nat) :
    ∀ (arr : List α) (low : Nat) (asc : Bool), low + count ≤ arr.length →
      (bitonic_sort_recursive arr low count asc).Perm arr := by
  induction count using Nat.strong_induction_on with
  | _ count ih =>
    intro arr low asc hlen
    rw [bitonic_sort_recursive]
    split
    · rename_i h
      dsimp only
      have hl1 : (bitonic_sort_recursive arr low (count / 2) true).length = arr.length :=
        length_bitonic_sort_recursive _ _ _ _
      have hl2 : (bitonic_sort_recursive (bitonic_sort_recursive arr low (count / 2) true)
          (low + count / 2) (count / 2) false).length = arr.length := by
        rw [length_bitonic_sort_recursive, hl1]
      exact ((bitonic_merge_perm _ _ _ _ (by omega)).trans
        ((ih _ (by omega) _ _ _ (by omega)).trans (ih _ (by omega) _ _ _ (by omega))))
    · exact List.Perm.refl arr

end LayerLemmas

section SegmentLemmas

theorem lists_eq_of_getD {α : Type} (l1 l2 : List α) (d : α) (hlen : l1.length = l2.length)
    (h : ∀ p, p < l1.length → l1.getD p d = l2.getD p d) : l1 = l2 := by
  apply List.ext_getElem hlen
  intro i h1 h2
  have hi := h i h1
  rwa [List.getD_eq_getElem _ _ h1, List.getD_eq_getElem _ _ h2] at hi

theorem take_eq_of_getD {α : Type} (l1 l2 : List α) (d : α) (low : Nat)
    (hlen : l1.length = l2.length)
    (h : ∀ p, p < low → l1.getD p d = l2.getD p d) : l1.take low = l2.take low := by
  apply lists_eq_of_getD _ _ d (by simp [hlen])
  intro p hp
  rw [List.length_take] at hp
  have hp1 : p < l1.length := lt_of_lt_of_le hp (min_le_right _ _)
  have hplow : p < low := lt_of_lt_of_le hp (min_le_left _ _)
  rw [List.getD_eq_getElem _ _ (by simp; exact ⟨hplow, hp1⟩),
    List.getD_eq_getElem _ _ (by simp; omega), List.getElem_take, List.getElem_take]
  have hpe := h p hplow
  rwa [List.getD_eq_getElem _ _ hp1, List.getD_eq_getElem _ _ (by omega)] at hpe

theorem drop_eq_of_getD {α : Type} (l1 l2 : List α) (d : α) (m : Nat)
    (hlen : l1.length = l2.length)
    (h : ∀ p, m ≤ p → p < l1.length → l1.getD p d = l2.getD p d) :
    l1.drop m = l2.drop m := by
  apply lists_eq_of_getD _ _ d (by simp [hlen])
  intro p hp
  rw [List.length_drop] at hp
  rw [List.getD_eq_getElem _ _ (by simpa using hp),
    List.getD_eq_getElem _ _ (by simp; omega), List.getElem_drop, List.getElem_drop]
  have hpe := h (m + p) (by omega) (by omega)
  rwa [List.getD_eq_getElem _ _ (by omega), List.getD_eq_getElem _ _ (by omega)] at hpe

theorem seg_decomp {α : Type} (l : List α) (low count : Nat) :
    l = l.take low ++ (segSlice l low count ++ l.drop (low + count)) := by
  unfold segSlice
  conv_lhs => rw [← List.take_append_drop low l]
  congr 1
  conv_lhs => rw [← List.take_append_drop count (l.drop low)]
  congr 1
  rw [List.drop_drop]

theorem segSlice_perm {α : Type} [DecidableEq α] (l' l : List α) (low count : Nat) (d : α)
    (hlen : l'.length = l.length) (hperm : l'.Perm l)
    (hlow : ∀ p, p < low → l'.getD p d = l.getD p d)
    (hhigh : ∀ p, low + count ≤ p → p < l'.length → l'.getD p d = l.getD p d) :
    (segSlice l' low count).Perm (segSlice l low count) := by
  rw [List.perm_iff_count]
  intro v
  have hcnt : l'.count v = l.count v := hperm.count_eq v
  have hdec1 := seg_decomp l' low count
  have hdec2 := seg_decomp l low count
  have htake : l'.take low = l.take low := take_eq_of_getD l' l d low hlen hlow
  have hdrop : l'.drop (low + count) = l.drop (low + count) := by
    apply drop_eq_of_getD l' l d (low + count) hlen
    intro p hp1 hp2
    exact hhigh p hp1 hp2
  rw [hdec1, hdec2] at hcnt
  simp only [List.count_append, htake, hdrop] at hcnt
  omega

theorem mem_segSlice_iff {α : Type} (l : List α) (low count : Nat) (d : α)
    (hc : low + count ≤ l.length) (v : α) :
    v ∈ segSlice l low count ↔ ∃ t, t < count ∧ l.getD (low + t) d = v := by
  unfold segSlice
  rw [List.mem_iff_getElem]
  constructor
  · rintro ⟨i, hi, he⟩
    have hi' : i < count := by
      simp only [List.length_take, List.length_drop] at hi
      omega
    refine ⟨i, hi', ?_⟩
    rw [List.getD_eq_getElem _ _ (by omega), ← he, List.getElem_take, List.getElem_drop]
  · rintro ⟨t, ht, he⟩
    have hl : t < ((l.drop low).take count).length := by
      simp only [List.length_take, List.length_drop]
      omega
    refine ⟨t, hl, ?_⟩
    rw [List.getElem_take, List.getElem_drop]
    rwa [List.getD_eq_getElem _ _ (by omega)] at he

theorem length_segSlice {α : Type} (l : List α) (low count : Nat)
    (hc : low + count ≤ l.length) : (segSlice l low count).length = count := by
  unfold segSlice
  simp only [List.length_take, List.length_drop]
  omega

end SegmentLemmas

section Bool01Forms

theorem bool_min_eq_and : ∀ a b : Bool, min a b = (a && b) := by decide

theorem bool_max_eq_or : ∀ a b : Bool, max a b = (a || b) := by decide

theorem and_interval_form (x : Nat → Bool) (k a b : Nat)
    (hx : ∀ t, t < k + k → x t = decide (a ≤ t ∧ t < b)) :
    ∀ t, t < k → (x t && x (t + k)) = decide (a ≤ t ∧ t < b - k) := by
  intro t ht
  rw [hx t (by omega), hx (t + k) (by omega), ← Bool.decide_and]
  exact decide_eq_decide.mpr (by omega)

theorem or_interval_form (x : Nat → Bool) (k a b : Nat)
    (hx : ∀ t, t < k + k → x t = decide (a ≤ t ∧ t < b)) :
    (∃ a' b', ∀ t, t < k → (x t || x (t + k)) = decide (a' ≤ t ∧ t < b')) ∨
    (∃ a' b', ∀ t, t < k → (x t || x (t + k)) = !decide (a' ≤ t ∧ t < b')) := by
  by_cases h1 : b ≤ k
  · refine Or.inl ⟨a, b, fun t ht => ?_⟩
    rw [hx t (by omega), hx (t + k) (by omega), ← Bool.decide_or]
    exact decide_eq_decide.mpr (by omega)
  · by_cases h2 : k ≤ a
    · refine Or.inl ⟨a - k, b - k, fun t ht => ?_⟩
      rw [hx t (by omega), hx (t + k) (by omega), ← Bool.decide_or]
      exact decide_eq_decide.mpr (by omega)
    · by_cases h3 : a ≤ b - k
      · refine Or.inl ⟨a - k, b, fun t ht => ?_⟩
        rw [hx t (by omega), hx (t + k) (by omega), ← Bool.decide_or]
        exact decide_eq_decide.mpr (by omega)
      · refine Or.inr ⟨b - k, a, fun t ht => ?_⟩
        rw [hx t (by omega), hx (t + k) (by omega), ← Bool.decide_or, ← decide_not]
        exact decide_eq_decide.mpr (by omega)

theorem and_cointerval_form (x : Nat → Bool) (k a b : Nat)
    (hx : ∀ t, t < k + k → x t = !decide (a ≤ t ∧ t < b)) :
    (∃ a' b', ∀ t, t < k → (x t && x (t + k)) = decide (a' ≤ t ∧ t < b')) ∨
    (∃ a' b', ∀ t, t < k → (x t && x (t + k)) = !decide (a' ≤ t ∧ t < b')) := by
  by_cases h1 : b ≤ k
  · refine Or.inr ⟨a, b, fun t ht => ?_⟩
    rw [hx t (by omega), hx (t + k) (by omega), ← Bool.not_or, ← Bool.decide_or]
    rw [← decide_not, ← decide_not]
    exact decide_eq_decide.mpr (by omega)
  · by_cases h2 : k ≤ a
    · refine Or.inr ⟨a - k, b - k, fun t ht => ?_⟩
      rw [hx t (by omega), hx (t + k) (by omega), ← Bool.not_or, ← Bool.decide_or]
      rw [← decide_not, ← decide_not]
      exact decide_eq_decide.mpr (by omega)
    · by_cases h3 : a ≤ b - k
      · refine Or.inr ⟨a - k, b, fun t ht => ?_⟩
        rw [hx t (by omega), hx (t + k) (by omega), ← Bool.not_or, ← Bool.decide_or]
        rw [← decide_not, ← decide_not]
        exact decide_eq_decide.mpr (by omega)
      · refine Or.inl ⟨b - k, a, fun t ht => ?_⟩
        rw [hx t (by omega), hx (t + k) (by omega), ← Bool.not_or, ← Bool.decide_or]
        rw [← decide_not]
        exact decide_eq_decide.mpr (by omega)

theorem or_cointerval_form (x : Nat → Bool) (k a b : Nat)
    (hx : ∀ t, t < k + k → x t = !decide (a ≤ t ∧ t < b)) :
    ∀ t, t < k → (x t || x (t + k)) = !decide (a ≤ t ∧ t < b - k) := by
  intro t ht
  rw [hx t (by omega), hx (t + k) (by omega), ← Bool.not_and, ← Bool.decide_and]
  rw [← decide_not, ← decide_not]
  exact decide_eq_decide.mpr (by omega)

theorem cross_interval_form (x : Nat → Bool) (k a b : Nat)
    (hx : ∀ t, t < k + k → x t = decide (a ≤ t ∧ t < b)) :
    ∀ t u, t < k → u < k → (x t && x (t + k)) = true → (x u || x (u + k)) = true := by
  intro t u ht hu hand
  rw [hx t (by omega), hx (t + k) (by omega)] at hand
  rw [hx u (by omega), hx (u + k) (by omega)]
  simp only [Bool.and_eq_true, decide_eq_true_eq] at hand
  simp only [Bool.or_eq_true, decide_eq_true_eq]
  omega

theorem cross_cointerval_form (x : Nat → Bool) (k a b : Nat)
    (hx : ∀ t, t < k + k → x t = !decide (a ≤ t ∧ t < b)) :
    ∀ t u, t < k → u < k → (x t && x (t + k)) = true → (x u || x (u + k)) = true := by
  intro t u ht hu hand
  rw [hx t (by omega), hx (t + k) (by omega)] at hand
  rw [hx u (by omega), hx (u + k) (by omega)]
  simp only [Bool.and_eq_true, Bool.not_eq_true', decide_eq_false_iff_not] at hand
  simp only [Bool.or_eq_true, Bool.not_eq_true', decide_eq_false_iff_not]
  omega

end Bool01Forms

section BoolLayer

theorem casLayer_bool_fst (l : List Bool) (low k : Nat) (asc : Bool) (t : Nat)
    (ht : t < k) (hlen : low + k + k ≤ l.length) :
    (casLayer l low k asc).getD (low + t) false =
      (if asc = true then (l.getD (low + t) false && l.getD (low + (t + k)) false)
       else (l.getD (low + t) false || l.getD (low + (t + k)) false)) := by
  rw [casLayer_getD_fst l low k asc t false ht hlen]
  rcases asc with _ | _
  · rw [if_neg (by decide), if_neg (by decide), bool_max_eq_or, Nat.add_assoc]
  · rw [if_pos rfl, if_pos rfl, bool_min_eq_and, Nat.add_assoc]

theorem casLayer_bool_snd (l : List Bool) (low k : Nat) (asc : Bool) (t : Nat)
    (ht : t < k) (hlen : low + k + k ≤ l.length) :
    (casLayer l low k asc).getD (low + k + t) false =
      (if asc = true then (l.getD (low + t) false || l.getD (low + (t + k)) false)
       else (l.getD (low + t) false && l.getD (low + (t + k)) false)) := by
  rw [show low + k + t = low + t + k from by omega]
  rw [casLayer_getD_snd l low k asc t false ht hlen]
  rcases asc with _ | _
  · rw [if_neg (by decide), if_neg (by decide), bool_min_eq_and, Nat.add_assoc]
  · rw [if_pos rfl, if_pos rfl, bool_max_eq_or, Nat.add_assoc]

theorem layer_closure_asc (l : List Bool) (low k : Nat)
    (hlen : low + k + k ≤ l.length) (hb : SegBitonic l low (k + k)) :
    SegBitonic (casLayer l low k true) low k ∧
    SegBitonic (casLayer l low k true) (low + k) k ∧
    (∀ t u, t < k → u < k →
      (casLayer l low k true).getD (low + t) false = true →
      (casLayer l low k true).getD (low + k + u) false = true) := by
  have hA : ∀ t, t < k → (casLayer l low k true).getD (low + t) false =
      (l.getD (low + t) false && l.getD (low + (t + k)) false) := by
    intro t ht
    rw [casLayer_bool_fst l low k true t ht hlen, if_pos rfl]
  have hB : ∀ t, t < k → (casLayer l low k true).getD (low + k + t) false =
      (l.getD (low + t) false || l.getD (low + (t + k)) false) := by
    intro t ht
    rw [casLayer_bool_snd l low k true t ht hlen, if_pos rfl]
  rcases hb with ⟨a, b, hx⟩ | ⟨a, b, hx⟩
  · refine ⟨Or.inl ⟨a, b - k, fun t ht => ?_⟩, ?_, ?_⟩
    · rw [hA t ht]
      exact and_interval_form (fun t => l.getD (low + t) false) k a b hx t ht
    · rcases or_interval_form (fun t => l.getD (low + t) false) k a b hx with
        ⟨a', b', hfm⟩ | ⟨a', b', hfm⟩
      · exact Or.inl ⟨a', b', fun t ht => by rw [hB t ht]; exact hfm t ht⟩
      · exact Or.inr ⟨a', b', fun t ht => by rw [hB t ht]; exact hfm t ht⟩
    · intro t u ht hu hval
      rw [hA t ht] at hval
      rw [hB u hu]
      exact cross_interval_form (fun t => l.getD (low + t) false) k a b hx t u ht hu hval
  · refine ⟨?_, ?_, ?_⟩
    · rcases and_cointerval_form (fun t => l.getD (low + t) false) k a b hx with
        ⟨a', b', hfm⟩ | ⟨a', b', hfm⟩
      · exact Or.inl ⟨a', b', fun t ht => by rw [hA t ht]; exact hfm t ht⟩
      · exact Or.inr ⟨a', b', fun t ht => by rw [hA t ht]; exact hfm t ht⟩
    · refine Or.inr ⟨a, b - k, fun t ht => ?_⟩
      rw [hB t ht]
      exact or_cointerval_form (fun t => l.getD (low + t) false) k a b hx t ht
    · intro t u ht hu hval
      rw [hA t ht] at hval
      rw [hB u hu]
      exact cross_cointerval_form (fun t => l.getD (low + t) false) k a b hx t u ht hu hval

theorem layer_closure_desc (l : List Bool) (low k : Nat)
    (hlen : low + k + k ≤ l.length) (hb : SegBitonic l low (k + k)) :
    SegBitonic (casLayer l low k false) low k ∧
    SegBitonic (casLayer l low k false) (low + k) k ∧
    (∀ t u, t < k → u < k →
      (casLayer l low k false).getD (low + k + t) false = true →
      (casLayer l low k false).getD (low + u) false = true) := by
  have hA : ∀ t, t < k → (casLayer l low k false).getD (low + t) false =
      (l.getD (low + t) false || l.getD (low + (t + k)) false) := by
    intro t ht
    rw [casLayer_bool_fst l low k false t ht hlen, if_neg (by decide)]
  have hB : ∀ t, t < k → (casLayer l low k false).getD (low + k + t) false =
      (l.getD (low + t) false && l.getD (low + (t + k)) false) := by
    intro t ht
    rw [casLayer_bool_snd l low k false t ht hlen, if_neg (by decide)]
  rcases hb with ⟨a, b, hx⟩ | ⟨a, b, hx⟩
  · refine ⟨?_, ?_, ?_⟩
    · rcases or_interval_form (fun t => l.getD (low + t) false) k a b hx with
        ⟨a', b', hfm⟩ | ⟨a', b', hfm⟩
      · exact Or.inl ⟨a', b', fun t ht => by rw [hA t ht]; exact hfm t ht⟩
      · exact Or.inr ⟨a', b', fun t ht => by rw [hA t ht]; exact hfm t ht⟩
    · refine Or.inl ⟨a, b - k, fun t ht => ?_⟩
      rw [hB t ht]
      exact and_interval_form (fun t => l.getD (low + t) false) k a b hx t ht
    · intro t u ht hu hval
      rw [hB t ht] at hval
      rw [hA u hu]
      exact cross_interval_form (fun t => l.getD (low + t) false) k a b hx t u ht hu hval
  · refine ⟨?_, ?_, ?_⟩
    · refine Or.inr ⟨a, b - k, fun t ht => ?_⟩
      rw [hA t ht]
      exact or_cointerval_form (fun t => l.getD (low + t) false) k a b hx t ht
    · rcases and_cointerval_form (fun t => l.getD (low + t) false) k a b hx with
        ⟨a', b', hfm⟩ | ⟨a', b', hfm⟩
      · exact Or.inl ⟨a', b', fun t ht => by rw [hB t ht]; exact hfm t ht⟩
      · exact Or.inr ⟨a', b', fun t ht => by rw [hB t ht]; exact hfm t ht⟩
    · intro t u ht hu hval
      rw [hB t ht] at hval
      rw [hA u hu]
      exact cross_cointerval_form (fun t => l.getD (low + t) false) k a b hx t u ht hu hval

end BoolLayer

section BoolTransport

theorem SegOnes_congr (l1 l2 : List Bool) (low count a b : Nat)
    (h : ∀ t, t < count → l2.getD (low + t) false = l1.getD (low + t) false) :
    SegOnes l1 low count a b → SegOnes l2 low count a b :=
  fun hs t ht => (h t ht).trans (hs t ht)

theorem SegZerosInt_congr (l1 l2 : List Bool) (low count a b : Nat)
    (h : ∀ t, t < count → l2.getD (low + t) false = l1.getD (low + t) false) :
    SegZerosInt l1 low count a b → SegZerosInt l2 low count a b :=
  fun hs t ht => (h t ht).trans (hs t ht)

theorem SegBitonic_congr (l1 l2 : List Bool) (low count : Nat)
    (h : ∀ t, t < count → l2.getD (low + t) false = l1.getD (low + t) false) :
    SegBitonic l1 low count → SegBitonic l2 low count := by
  rintro (⟨a, b, hs⟩ | ⟨a, b, hs⟩)
  · exact Or.inl ⟨a, b, SegOnes_congr l1 l2 low count a b h hs⟩
  · exact Or.inr ⟨a, b, SegZerosInt_congr l1 l2 low count a b h hs⟩

theorem SegSortedAscB_congr (l1 l2 : List Bool) (low count : Nat)
    (h : ∀ t, t < count → l2.getD (low + t) false = l1.getD (low + t) false) :
    SegSortedAscB l1 low count → SegSortedAscB l2 low count := by
  rintro ⟨a, hs⟩
  exact ⟨a, SegOnes_congr l1 l2 low count a count h hs⟩

theorem SegSortedDescB_congr (l1 l2 : List Bool) (low count : Nat)
    (h : ∀ t, t < count → l2.getD (low + t) false = l1.getD (low + t) false) :
    SegSortedDescB l1 low count → SegSortedDescB l2 low count := by
  rintro ⟨b, hs⟩
  exact ⟨b, SegOnes_congr l1 l2 low count 0 b h hs⟩

theorem seg_exists_true_iff (l : List Bool) (low count : Nat)
    (hc : low + count ≤ l.length) :
    (∃ t, t < count ∧ l.getD (low + t) false = true) ↔ true ∈ segSlice l low count :=
  (mem_segSlice_iff l low count false hc true).symm

theorem seg_all_true_iff (l : List Bool) (low count : Nat)
    (hc : low + count ≤ l.length) :
    (∀ t, t < count → l.getD (low + t) false = true) ↔
      (∀ v, v ∈ segSlice l low count → v = true) := by
  constructor
  · intro hv v hvmem
    obtain ⟨t, ht, he⟩ := (mem_segSlice_iff l low count false hc v).mp hvmem
    rw [← he]
    exact hv t ht
  · intro hall t ht
    exact hall _ ((mem_segSlice_iff l low count false hc _).mpr ⟨t, ht, rfl⟩)

theorem combineAsc (f : List Bool) (low k : Nat)
    (hL : SegSortedAscB f low k) (hR : SegSortedAscB f (low + k) k)
    (hC : (∃ t, t < k ∧ f.getD (low + t) false = true) →
          (∀ u, u < k → f.getD (low + k + u) false = true)) :
    SegSortedAscB f low (k + k) := by
  by_cases hex : ∃ t, t < k ∧ f.getD (low + t) false = true
  · obtain ⟨a1, ha1⟩ := hL
    have ha1k : a1 < k := by
      obtain ⟨t, ht, hv⟩ := hex
      have hd := ha1 t ht
      rw [hv] at hd
      have := of_decide_eq_true hd.symm
      omega
    refine ⟨a1, fun t ht => ?_⟩
    by_cases htk : t < k
    · rw [ha1 t htk]
      exact decide_eq_decide.mpr (by omega)
    · have hmem := hC hex (t - k) (by omega)
      rw [show low + t = low + k + (t - k) from by omega, hmem]
      exact (decide_eq_true (by omega : a1 ≤ t ∧ t < k + k)).symm
  · obtain ⟨a2, ha2⟩ := hR
    refine ⟨k + a2, fun t ht => ?_⟩
    by_cases htk : t < k
    · have hfalse : f.getD (low + t) false = false := by
        cases hfv : f.getD (low + t) false
        · rfl
        · exact absurd ⟨t, htk, hfv⟩ hex
      rw [hfalse]
      exact (decide_eq_false (by omega)).symm
    · have := ha2 (t - k) (by omega)
      rw [show low + t = low + k + (t - k) from by omega, this]
      exact decide_eq_decide.mpr (by omega)

theorem combineDesc (f : List Bool) (low k : Nat)
    (hL : SegSortedDescB f low k) (hR : SegSortedDescB f (low + k) k)
    (hC : (∃ t, t < k ∧ f.getD (low + k + t) false = true) →
          (∀ u, u < k → f.getD (low + u) false = true)) :
    SegSortedDescB f low (k + k) := by
  by_cases hex : ∃ t, t < k ∧ f.getD (low + k + t) false = true
  · obtain ⟨b2, hb2⟩ := hR
    have hb2pos : 0 < b2 := by
      obtain ⟨t, ht, hv⟩ := hex
      have hd := hb2 t ht
      rw [hv] at hd
      have := of_decide_eq_true hd.symm
      omega
    refine ⟨k + b2, fun t ht => ?_⟩
    by_cases htk : t < k
    · rw [hC hex t htk]
      exact (decide_eq_true (by omega : 0 ≤ t ∧ t < k + b2)).symm
    · have := hb2 (t - k) (by omega)
      rw [show low + t = low + k + (t - k) from by omega, this]
      exact decide_eq_decide.mpr (by omega)
  · obtain ⟨b1, hb1⟩ := hL
    refine ⟨min b1 k, fun t ht => ?_⟩
    by_cases htk : t < k
    · rw [hb1 t htk]
      exact decide_eq_decide.mpr (by omega)
    · have hfalse : f.getD (low + t) false = false := by
        cases hfv : f.getD (low + t) false
        · rfl
        · exact absurd ⟨t - k, by omega,
            by rw [show low + k + (t - k) = low + t from by omega]; exact hfv⟩ hex
      rw [hfalse]
      exact (decide_eq_false (by omega)).symm

theorem updown_bitonic (f : List Bool) (low k : Nat)
    (hL : SegSortedAscB f low k) (hR : SegSortedDescB f (low + k) k) :
    SegBitonic f low (k + k) := by
  obtain ⟨a, ha⟩ := hL
  obtain ⟨b, hb⟩ := hR
  refine Or.inl ⟨min a k, k + min b k, fun t ht => ?_⟩
  by_cases htk : t < k
  · rw [ha t htk]
    exact decide_eq_decide.mpr (by omega)
  · have := hb (t - k) (by omega)
    rw [show low + t = low + k + (t - k) from by omega, this]
    exact decide_eq_decide.mpr (by omega)

end BoolTransport

section BoolMerge

theorem bitonic_merge_asc_bool (e : Nat) :
    ∀ (l : List Bool) (low : Nat), low + 2 ^ e ≤ l.length → SegBitonic l low (2 ^ e) →
      SegSortedAscB (bitonic_merge l low (2 ^ e) true) low (2 ^ e) := by
  induction e with
  | zero =>
    intro l low _ _
    rw [bitonic_merge, if_neg (by omega)]
    by_cases hv : l.getD (low + 0) false = true
    · refine ⟨0, fun t ht => ?_⟩
      have ht0 : t = 0 := by omega
      subst ht0
      rw [hv]
      exact (decide_eq_true (by omega)).symm
    · refine ⟨1, fun t ht => ?_⟩
      have ht0 : t = 0 := by omega
      subst ht0
      rw [Bool.not_eq_true] at hv
      rw [hv]
      exact (decide_eq_false (by omega)).symm
  | succ e ih =>
    intro l low hlen hb
    have h2 : (2 : Nat) ^ (e + 1) = 2 ^ e + 2 ^ e := by rw [pow_succ]; omega
    have hp : 0 < (2 : Nat) ^ e := by positivity
    have hk : (2 : Nat) ^ (e + 1) / 2 = 2 ^ e := by omega
    rw [h2] at hb
    rw [bitonic_merge, if_pos (by omega)]
    dsimp only
    rw [hk, h2]
    have hlen' : low + 2 ^ e + 2 ^ e ≤ l.length := by omega
    obtain ⟨hbl, hbh, hcross⟩ := layer_closure_asc l low (2 ^ e) hlen' hb
    have hl0 : (casLayer l low (2 ^ e) true).length = l.length := length_casLayer _ _ _ _
    have hl1 : (bitonic_merge (casLayer l low (2 ^ e) true) low (2 ^ e) true).length
        = l.length := by rw [length_bitonic_merge, hl0]
    have hl2 : (bitonic_merge (bitonic_merge (casLayer l low (2 ^ e) true) low (2 ^ e) true)
        (low + 2 ^ e) (2 ^ e) true).length = l.length := by
      rw [length_bitonic_merge, hl1]
    have hs1 : SegSortedAscB (bitonic_merge (casLayer l low (2 ^ e) true) low (2 ^ e) true)
        low (2 ^ e) := ih _ low (by omega) hbl
    have houts1 : ∀ t, t < 2 ^ e →
        (bitonic_merge (casLayer l low (2 ^ e) true) low (2 ^ e) true).getD
          (low + 2 ^ e + t) false
        = (casLayer l low (2 ^ e) true).getD (low + 2 ^ e + t) false :=
      fun t _ => bitonic_merge_getD_outside (2 ^ e) _ low true _ false (Or.inr (by omega))
    have hbh1 : SegBitonic (bitonic_merge (casLayer l low (2 ^ e) true) low (2 ^ e) true)
        (low + 2 ^ e) (2 ^ e) := SegBitonic_congr _ _ (low + 2 ^ e) (2 ^ e) houts1 hbh
    have hs2 : SegSortedAscB (bitonic_merge
          (bitonic_merge (casLayer l low (2 ^ e) true) low (2 ^ e) true)
          (low + 2 ^ e) (2 ^ e) true) (low + 2 ^ e) (2 ^ e) :=
      ih _ (low + 2 ^ e) (by omega) hbh1
    have houts2 : ∀ t, t < 2 ^ e →
        (bitonic_merge (bitonic_merge (casLayer l low (2 ^ e) true) low (2 ^ e) true)
          (low + 2 ^ e) (2 ^ e) true).getD (low + t) false
        = (bitonic_merge (casLayer l low (2 ^ e) true) low (2 ^ e) true).getD
            (low + t) false :=
      fun t ht => bitonic_merge_getD_outside (2 ^ e) _ (low + 2 ^ e) true _ false
        (Or.inl (by omega))
    have hs1' : SegSortedAscB (bitonic_merge
          (bitonic_merge (casLayer l low (2 ^ e) true) low (2 ^ e) true)
          (low + 2 ^ e) (2 ^ e) true) low (2 ^ e) :=
      SegSortedAscB_congr _ _ low (2 ^ e) houts2 hs1
    refine combineAsc _ low (2 ^ e) hs1' hs2 ?_
    intro hex u hu
    have hex1 : ∃ t, t < 2 ^ e ∧
        (bitonic_merge (casLayer l low (2 ^ e) true) low (2 ^ e) true).getD
          (low + t) false = true := by
      obtain ⟨t, ht, hv⟩ := hex
      rw [houts2 t ht] at hv
      exact ⟨t, ht, hv⟩
    have hperm1 : (segSlice (bitonic_merge (casLayer l low (2 ^ e) true) low (2 ^ e) true)
          low (2 ^ e)).Perm (segSlice (casLayer l low (2 ^ e) true) low (2 ^ e)) :=
      segSlice_perm _ _ low (2 ^ e) false (by rw [hl1, hl0])
        (bitonic_merge_perm (2 ^ e) _ low true (by omega))
        (fun p hp => bitonic_merge_getD_outside _ _ _ _ _ _ (Or.inl hp))
        (fun p hp _ => bitonic_merge_getD_outside _ _ _ _ _ _ (Or.inr hp))
    have hex0 : ∃ t, t < 2 ^ e ∧
        (casLayer l low (2 ^ e) true).getD (low + t) false = true := by
      rw [seg_exists_true_iff _ low (2 ^ e) (by omega)] at hex1
      rw [seg_exists_true_iff _ low (2 ^ e) (by omega)]
      exact hperm1.mem_iff.mp hex1
    have hall0 : ∀ u', u' < 2 ^ e →
        (casLayer l low (2 ^ e) true).getD (low + 2 ^ e + u') false = true := by
      obtain ⟨t0, ht0, hv0⟩ := hex0
      exact fun u' hu' => hcross t0 u' ht0 hu' hv0
    have hall1 : ∀ u', u' < 2 ^ e →
        (bitonic_merge (casLayer l low (2 ^ e) true) low (2 ^ e) true).getD
          (low + 2 ^ e + u') false = true := by
      intro u' hu'
      rw [houts1 u' hu']
      exact hall0 u' hu'
    have hperm2 : (segSlice (bitonic_merge
          (bitonic_merge (casLayer l low (2 ^ e) true) low (2 ^ e) true)
          (low + 2 ^ e) (2 ^ e) true) (low + 2 ^ e) (2 ^ e)).Perm
        (segSlice (bitonic_merge (casLayer l low (2 ^ e) true) low (2 ^ e) true)
          (low + 2 ^ e) (2 ^ e)) :=
      segSlice_perm _ _ (low + 2 ^ e) (2 ^ e) false (by rw [hl2, hl1])
        (bitonic_merge_perm (2 ^ e) _ (low + 2 ^ e) true (by omega))
        (fun p hp => bitonic_merge_getD_outside _ _ _ _ _ _ (Or.inl hp))
        (fun p hp _ => bitonic_merge_getD_outside _ _ _ _ _ _ (Or.inr hp))
    have hallv1 := (seg_all_true_iff _ (low + 2 ^ e) (2 ^ e) (by omega)).mp hall1
    have hallv2 : ∀ v, v ∈ segSlice (bitonic_merge
          (bitonic_merge (casLayer l low (2 ^ e) true) low (2 ^ e) true)
          (low + 2 ^ e) (2 ^ e) true) (low + 2 ^ e) (2 ^ e) → v = true :=
      fun v hv => hallv1 v (hperm2.subset hv)
    exact (seg_all_true_iff _ (low + 2 ^ e) (2 ^ e) (by omega)).mpr hallv2 u hu

end BoolMerge

section BoolMergeDesc

theorem bitonic_merge_desc_bool (e : Nat) :
    ∀ (l : List Bool) (low : Nat), low + 2 ^ e ≤ l.length → SegBitonic l low (2 ^ e) →
      SegSortedDescB (bitonic_merge l low (2 ^ e) false) low (2 ^ e) := by
  induction e with
  | zero =>
    intro l low _ _
    rw [bitonic_merge, if_neg (by omega)]
    by_cases hv : l.getD (low + 0) false = true
    · refine ⟨1, fun t ht => ?_⟩
      have ht0 : t = 0 := by omega
      subst ht0
      rw [hv]
      exact (decide_eq_true (by omega)).symm
    · refine ⟨0, fun t ht => ?_⟩
      have ht0 : t = 0 := by omega
      subst ht0
      rw [Bool.not_eq_true] at hv
      rw [hv]
      exact (decide_eq_false (by omega)).symm
  | succ e ih =>
    intro l low hlen hb
    have h2 : (2 : Nat) ^ (e + 1) = 2 ^ e + 2 ^ e := by rw [pow_succ]; omega
    have hp : 0 < (2 : Nat) ^ e := by positivity
    have hk : (2 : Nat) ^ (e + 1) / 2 = 2 ^ e := by omega
    rw [h2] at hb
    rw [bitonic_merge, if_pos (by omega)]
    dsimp only
    rw [hk, h2]
    have hlen' : low + 2 ^ e + 2 ^ e ≤ l.length := by omega
    obtain ⟨hbl, hbh, hcross⟩ := layer_closure_desc l low (2 ^ e) hlen' hb
    have hl0 : (casLayer l low (2 ^ e) false).length = l.length := length_casLayer _ _ _ _
    have hl1 : (bitonic_merge (casLayer l low (2 ^ e) false) low (2 ^ e) false).length
        = l.length := by rw [length_bitonic_merge, hl0]
    have hl2 : (bitonic_merge (bitonic_merge (casLayer l low (2 ^ e) false) low (2 ^ e) false)
        (low + 2 ^ e) (2 ^ e) false).length = l.length := by
      rw [length_bitonic_merge, hl1]
    have hs1 : SegSortedDescB (bitonic_merge (casLayer l low (2 ^ e) false) low (2 ^ e) false)
        low (2 ^ e) := ih _ low (by omega) hbl
    have houts1 : ∀ t, t < 2 ^ e →
        (bitonic_merge (casLayer l low (2 ^ e) false) low (2 ^ e) false).getD
          (low + 2 ^ e + t) false
        = (casLayer l low (2 ^ e) false).getD (low + 2 ^ e + t) false :=
      fun t _ => bitonic_merge_getD_outside (2 ^ e) _ low false _ false (Or.inr (by omega))
    have hbh1 : SegBitonic (bitonic_merge (casLayer l low (2 ^ e) false) low (2 ^ e) false)
        (low + 2 ^ e) (2 ^ e) := SegBitonic_congr _ _ (low + 2 ^ e) (2 ^ e) houts1 hbh
    have hs2 : SegSortedDescB (bitonic_merge
          (bitonic_merge (casLayer l low (2 ^ e) false) low (2 ^ e) false)
          (low + 2 ^ e) (2 ^ e) false) (low + 2 ^ e) (2 ^ e) :=
      ih _ (low + 2 ^ e) (by omega) hbh1
    have houts2 : ∀ t, t < 2 ^ e →
        (bitonic_merge (bitonic_merge (casLayer l low (2 ^ e) false) low (2 ^ e) false)
          (low + 2 ^ e) (2 ^ e) false).getD (low + t) false
        = (bitonic_merge (casLayer l low (2 ^ e) false) low (2 ^ e) false).getD
            (low + t) false :=
      fun t ht => bitonic_merge_getD_outside (2 ^ e) _ (low + 2 ^ e) false _ false
        (Or.inl (by omega))
    have hs1' : SegSortedDescB (bitonic_merge
          (bitonic_merge (casLayer l low (2 ^ e) false) low (2 ^ e) false)
          (low + 2 ^ e) (2 ^ e) false) low (2 ^ e) :=
      SegSortedDescB_congr _ _ low (2 ^ e) houts2 hs1
    refine combineDesc _ low (2 ^ e) hs1' hs2 ?_
    intro hex u hu
    have hperm2 : (segSlice (bitonic_merge
          (bitonic_merge (casLayer l low (2 ^ e) false) low (2 ^ e) false)
          (low + 2 ^ e) (2 ^ e) false) (low + 2 ^ e) (2 ^ e)).Perm
        (segSlice (bitonic_merge (casLayer l low (2 ^ e) false) low (2 ^ e) false)
          (low + 2 ^ e) (2 ^ e)) :=
      segSlice_perm _ _ (low + 2 ^ e) (2 ^ e) false (by rw [hl2, hl1])
        (bitonic_merge_perm (2 ^ e) _ (low + 2 ^ e) false (by omega))
        (fun p hp => bitonic_merge_getD_outside _ _ _ _ _ _ (Or.inl hp))
        (fun p hp _ => bitonic_merge_getD_outside _ _ _ _ _ _ (Or.inr hp))
    have hex1 : ∃ t, t < 2 ^ e ∧
        (bitonic_merge (casLayer l low (2 ^ e) false) low (2 ^ e) false).getD
          (low + 2 ^ e + t) false = true := by
      rw [seg_exists_true_iff _ (low + 2 ^ e) (2 ^ e) (by omega)]
      rw [seg_exists_true_iff _ (low + 2 ^ e) (2 ^ e) (by omega)] at hex
      exact hperm2.mem_iff.mp hex
    have hex0 : ∃ t, t < 2 ^ e ∧
        (casLayer l low (2 ^ e) false).getD (low + 2 ^ e + t) false = true := by
      obtain ⟨t, ht, hv⟩ := hex1
      rw [houts1 t ht] at hv
      exact ⟨t, ht, hv⟩
    have hall0 : ∀ u', u' < 2 ^ e →
        (casLayer l low (2 ^ e) false).getD (low + u') false = true := by
      obtain ⟨t0, ht0, hv0⟩ := hex0
      exact fun u' hu' => hcross t0 u' ht0 hu' hv0
    have hperm1 : (segSlice (bitonic_merge (casLayer l low (2 ^ e) false) low (2 ^ e) false)
          low (2 ^ e)).Perm (segSlice (casLayer l low (2 ^ e) false) low (2 ^ e)) :=
      segSlice_perm _ _ low (2 ^ e) false (by rw [hl1, hl0])
        (bitonic_merge_perm (2 ^ e) _ low false (by omega))
        (fun p hp => bitonic_merge_getD_outside _ _ _ _ _ _ (Or.inl hp))
        (fun p hp _ => bitonic_merge_getD_outside _ _ _ _ _ _ (Or.inr hp))
    have hallv0 := (seg_all_true_iff _ low (2 ^ e) (by omega)).mp hall0
    have hall1 : ∀ u', u' < 2 ^ e →
        (bitonic_merge (casLayer l low (2 ^ e) false) low (2 ^ e) false).getD
          (low + u') false = true :=
      (seg_all_true_iff _ low (2 ^ e) (by omega)).mpr
        (fun v hv => hallv0 v (hperm1.subset hv))
    rw [houts2 u hu]
    exact hall1 u hu

end BoolMergeDesc

section BoolSort

theorem single_sortedA (l : List Bool) (low : Nat) : SegSortedAscB l low 1 := by
  by_cases hv : l.getD (low + 0) false = true
  · refine ⟨0, fun t ht => ?_⟩
    have ht0 : t = 0 := by omega
    subst ht0
    rw [hv]
    exact (decide_eq_true (by omega)).symm
  · refine ⟨1, fun t ht => ?_⟩
    have ht0 : t = 0 := by omega
    subst ht0
    rw [Bool.not_eq_true] at hv
    rw [hv]
    exact (decide_eq_false (by omega)).symm

theorem single_sortedD (l : List Bool) (low : Nat) : SegSortedDescB l low 1 := by
  by_cases hv : l.getD (low + 0) false = true
  · refine ⟨1, fun t ht => ?_⟩
    have ht0 : t = 0 := by omega
    subst ht0
    rw [hv]
    exact (decide_eq_true (by omega)).symm
  · refine ⟨0, fun t ht => ?_⟩
    have ht0 : t = 0 := by omega
    subst ht0
    rw [Bool.not_eq_true] at hv
    rw [hv]
    exact (decide_eq_false (by omega)).symm

theorem bitonic_sort_recursive_bool (e : Nat) :
    ∀ (l : List Bool) (low : Nat) (asc : Bool), low + 2 ^ e ≤ l.length →
      (if asc = true
       then SegSortedAscB (bitonic_sort_recursive l low (2 ^ e) asc) low (2 ^ e)
       else SegSortedDescB (bitonic_sort_recursive l low (2 ^ e) asc) low (2 ^ e)) := by
  induction e with
  | zero =>
    intro l low asc _
    rcases asc with _ | _
    · rw [if_neg (by decide), bitonic_sort_recursive, if_neg (by omega)]
      exact single_sortedD l low
    · rw [if_pos rfl, bitonic_sort_recursive, if_neg (by omega)]
      exact single_sortedA l low
  | succ e ih =>
    intro l low asc hlen
    have h2 : (2 : Nat) ^ (e + 1) = 2 ^ e + 2 ^ e := by rw [pow_succ]; omega
    have hp : 0 < (2 : Nat) ^ e := by positivity
    have hk : (2 : Nat) ^ (e + 1) / 2 = 2 ^ e := by omega
    have hl1 : (bitonic_sort_recursive l low (2 ^ e) true).length = l.length :=
      length_bitonic_sort_recursive _ _ _ _
    have hl2 : (bitonic_sort_recursive (bitonic_sort_recursive l low (2 ^ e) true)
        (low + 2 ^ e) (2 ^ e) false).length = l.length := by
      rw [length_bitonic_sort_recursive, hl1]
    have hs1 : SegSortedAscB (bitonic_sort_recursive l low (2 ^ e) true) low (2 ^ e) := by
      have := ih l low true (by omega)
      rwa [if_pos rfl] at this
    have hs2 : SegSortedDescB (bitonic_sort_recursive
        (bitonic_sort_recursive l low (2 ^ e) true) (low + 2 ^ e) (2 ^ e) false)
        (low + 2 ^ e) (2 ^ e) := by
      have := ih (bitonic_sort_recursive l low (2 ^ e) true) (low + 2 ^ e) false
        (by rw [hl1]; omega)
      rwa [if_neg (by decide)] at this
    have houts : ∀ t, t < 2 ^ e →
        (bitonic_sort_recursive (bitonic_sort_recursive l low (2 ^ e) true)
          (low + 2 ^ e) (2 ^ e) false).getD (low + t) false
        = (bitonic_sort_recursive l low (2 ^ e) true).getD (low + t) false :=
      fun t ht => bitonic_sort_recursive_getD_outside (2 ^ e) _ (low + 2 ^ e) false _ false
        (Or.inl (by omega))
    have hs1' : SegSortedAscB (bitonic_sort_recursive
        (bitonic_sort_recursive l low (2 ^ e) true) (low + 2 ^ e) (2 ^ e) false)
        low (2 ^ e) := SegSortedAscB_congr _ _ low (2 ^ e) houts hs1
    have hbit : SegBitonic (bitonic_sort_recursive
        (bitonic_sort_recursive l low (2 ^ e) true) (low + 2 ^ e) (2 ^ e) false)
        low (2 ^ (e + 1)) := by
      rw [h2]
      exact updown_bitonic _ low (2 ^ e) hs1' hs2
    rcases asc with _ | _
    · rw [if_neg (by decide), bitonic_sort_recursive, if_pos (by omega)]
      dsimp only
      rw [hk]
      exact bitonic_merge_desc_bool (e + 1) _ low (by rw [hl2]; omega) hbit
    · rw [if_pos rfl, bitonic_sort_recursive, if_pos (by omega)]
      dsimp only
      rw [hk]
      exact bitonic_merge_asc_bool (e + 1) _ low (by rw [hl2]; omega) hbit

theorem bsr_asc_bool (e : Nat) (l : List Bool) (low : Nat) (h : low + 2 ^ e ≤ l.length) :
    SegSortedAscB (bitonic_sort_recursive l low (2 ^ e) true) low (2 ^ e) := by
  have := bitonic_sort_recursive_bool e l low true h
  rwa [if_pos rfl] at this

theorem bsr_desc_bool (e : Nat) (l : List Bool) (low : Nat) (h : low + 2 ^ e ≤ l.length) :
    SegSortedDescB (bitonic_sort_recursive l low (2 ^ e) false) low (2 ^ e) := by
  have := bitonic_sort_recursive_bool e l low false h
  rwa [if_neg (by decide)] at this

end BoolSort

section MonotoneTransfer

variable {α β : Type} [LinearOrder α] [Inhabited α] [LinearOrder β] [Inhabited β]

omit [LinearOrder α] [Inhabited α] [LinearOrder β] [Inhabited β] in
theorem map_getD_in (f : α → β) (l : List α) (i : Nat) (hi : i < l.length)
    (d1 : α) (d2 : β) : (l.map f).getD i d2 = f (l.getD i d1) := by
  rw [List.getD_eq_getElem _ _ (by simpa using hi), List.getD_eq_getElem _ _ hi,
    List.getElem_map]

theorem set_eq_self_of_getElem {γ : Type} (l : List γ) (i : Nat) (v : γ)
    (h : i < l.length) (hv : l[i] = v) : l.set i v = l := by
  apply List.ext_getElem (by simp)
  intro n h1 h2
  rw [List.getElem_set]
  split
  · rename_i hin
    subst hin
    exact hv.symm
  · rfl

theorem compare_and_swap_map (f : α → β) (hf : Monotone f) (arr : List α) (i j : Nat)
    (asc : Bool) (hi : i < arr.length) (hj : j < arr.length) :
    compare_and_swap (arr.map f) i j asc = (compare_and_swap arr i j asc).map f := by
  unfold compare_and_swap
  rw [map_getD_in f arr i hi default default, map_getD_in f arr j hj default default]
  by_cases h1 : decide (arr.getD i default > arr.getD j default) = asc <;>
    by_cases h2 : decide (f (arr.getD i default) > f (arr.getD j default)) = asc
  · rw [if_pos h1, if_pos h2, List.map_set, List.map_set]
  · -- the underlying values compare strictly but their images tie
    have hfeq : f (arr.getD i default) = f (arr.getD j default) := by
      rcases asc with _ | _
      · rw [decide_eq_false_iff_not] at h1
        rw [Bool.not_eq_false, decide_eq_true_eq] at h2
        exact absurd (hf (le_of_not_lt h1)) (not_le_of_lt h2)
      · rw [decide_eq_true_eq] at h1
        rw [Bool.not_eq_true, decide_eq_false_iff_not] at h2
        exact le_antisymm (le_of_not_lt h2) (hf (le_of_lt h1))
    rw [if_neg h2, if_pos h1, List.map_set, List.map_set]
    rw [set_eq_self_of_getElem ((arr.map f).set i (f (arr.getD j default))) j
        (f (arr.getD i default))
        (by simpa using hj)
        (by
          rw [List.getElem_set]
          split
          · exact hfeq.symm
          · rw [List.getElem_map, ← List.getD_eq_getElem _ default hj, hfeq]),
      set_eq_self_of_getElem (arr.map f) i (f (arr.getD j default)) (by simpa using hi)
        (by rw [List.getElem_map, ← List.getD_eq_getElem _ default hi, hfeq])]
  · have hfeq : f (arr.getD i default) = f (arr.getD j default) := by
      rcases asc with _ | _
      · rw [Bool.not_eq_false, decide_eq_true_eq] at h1
        rw [decide_eq_false_iff_not] at h2
        exact le_antisymm (le_of_not_lt h2) (hf (le_of_lt h1))
      · rw [Bool.not_eq_true, decide_eq_false_iff_not] at h1
        rw [decide_eq_true_eq] at h2
        exact absurd (hf (le_of_not_lt h1)) (not_le_of_lt h2)
    rw [if_pos h2, if_neg h1]
    rw [set_eq_self_of_getElem ((arr.map f).set i (f (arr.getD j default))) j
        (f (arr.getD i default))
        (by simpa using hj)
        (by
          rw [List.getElem_set]
          split
          · exact hfeq.symm
          · rw [List.getElem_map, ← List.getD_eq_getElem _ default hj, hfeq]),
      set_eq_self_of_getElem (arr.map f) i (f (arr.getD j default)) (by simpa using hi)
        (by rw [List.getElem_map, ← List.getD_eq_getElem _ default hi, hfeq])]
  · rw [if_neg h1, if_neg h2]

theorem casSeq_map (f : α → β) (hf : Monotone f) (arr : List α) (low k : Nat) (asc : Bool)
    (s : Nat) (hs : s ≤ k) (hlen : low + k + k ≤ arr.length) :
    casSeq (arr.map f) low k asc s = (casSeq arr low k asc s).map f := by
  induction s with
  | zero => rfl
  | succ s ih =>
    rw [casSeq_succ, casSeq_succ, ih (by omega),
      compare_and_swap_map f hf _ _ _ _ (by rw [length_casSeq]; omega)
        (by rw [length_casSeq]; omega)]

theorem casLayer_map (f : α → β) (hf : Monotone f) (arr : List α) (low k : Nat)
    (asc : Bool) (hlen : low + k + k ≤ arr.length) :
    casLayer (arr.map f) low k asc = (casLayer arr low k asc).map f := by
  rw [casLayer_eq_casSeq, casLayer_eq_casSeq]
  exact casSeq_map f hf arr low k asc k (Nat.le_refl k) hlen

theorem bitonic_merge_map (f : α → β) (hf : Monotone f) (count : Nat) :
    ∀ (arr : List α) (low : Nat) (asc : Bool), low + count ≤ arr.length →
      bitonic_merge (arr.map f) low count asc = (bitonic_merge arr low count asc).map f := by
  induction count using Nat.strong_induction_on with
  | _ count ih =>
    intro arr low asc hlen
    conv_lhs => rw [bitonic_merge]
    conv_rhs => rw [bitonic_merge]
    by_cases hcnt : 1 < count
    · rw [if_pos hcnt, if_pos hcnt]
      dsimp only
      have hc1 : (casLayer arr low (count / 2) asc).length = arr.length :=
        length_casLayer _ _ _ _
      have hc2 : (bitonic_merge (casLayer arr low (count / 2) asc) low (count / 2) asc).length
          = arr.length := by rw [length_bitonic_merge, hc1]
      rw [casLayer_map f hf arr low (count / 2) asc (by omega),
        ih _ (by omega) _ _ _ (by omega), ih _ (by omega) _ _ _ (by omega)]
    · rw [if_neg hcnt, if_neg hcnt]

theorem bitonic_sort_recursive_map (f : α → β) (hf : Monotone f) (count : Nat) :
    ∀ (arr : List α) (low : Nat) (asc : Bool), low + count ≤ arr.length →
      bitonic_sort_recursive (arr.map f) low count asc
        = (bitonic_sort_recursive arr low count asc).map f := by
  induction count using Nat.strong_induction_on with
  | _ count ih =>
    intro arr low asc hlen
    conv_lhs => rw [bitonic_sort_recursive]
    conv_rhs => rw [bitonic_sort_recursive]
    by_cases hcnt : 1 < count
    · rw [if_pos hcnt, if_pos hcnt]
      dsimp only
      have hc1 : (bitonic_sort_recursive arr low (count / 2) true).length = arr.length :=
        length_bitonic_sort_recursive _ _ _ _
      have hc2 : (bitonic_sort_recursive (bitonic_sort_recursive arr low (count / 2) true)
          (low + count / 2) (count / 2) false).length = arr.length := by
        rw [length_bitonic_sort_recursive, hc1]
      rw [ih _ (by omega) _ _ _ (by omega), ih _ (by omega) _ _ _ (by omega),
        bitonic_merge_map f hf count _ low asc (by omega)]
    · rw [if_neg hcnt, if_neg hcnt]

end MonotoneTransfer

section ZeroOneTransfer

variable {α : Type} [LinearOrder α] [Inhabited α]

omit [Inhabited α] in
theorem threshold_monotone (c : α) : Monotone (fun v : α => decide (c ≤ v)) := by
  intro x y hxy
  show (decide (c ≤ x) : Bool) ≤ decide (c ≤ y)
  by_cases hcx : c ≤ x
  · have hcy : c ≤ y := le_trans hcx hxy
    simp [hcx, hcy]
  · rw [decide_eq_false hcx]
    exact Bool.false_le _

theorem bitonic_sort_recursive_sorted (e : Nat) (arr : List α) (low : Nat) (asc : Bool)
    (hlen : low + 2 ^ e ≤ arr.length) :
    SegmentMonotone (bitonic_sort_recursive arr low (2 ^ e) asc) low (2 ^ e) asc := by
  intro t ht
  have hylen : (bitonic_sort_recursive arr low (2 ^ e) asc).length = arr.length :=
    length_bitonic_sort_recursive _ _ _ _
  rcases asc with _ | _
  · rw [if_neg (by decide)]
    by_contra hcon
    have hlt : (bitonic_sort_recursive arr low (2 ^ e) false).getD (low + t) default <
        (bitonic_sort_recursive arr low (2 ^ e) false).getD (low + t + 1) default :=
      lt_of_not_le hcon
    set c := (bitonic_sort_recursive arr low (2 ^ e) false).getD (low + t + 1) default with hc
    have hmap := bitonic_sort_recursive_map (fun v : α => decide (c ≤ v))
      (threshold_monotone c) (2 ^ e) arr low false hlen
    have hB := bsr_desc_bool e (arr.map (fun v : α => decide (c ≤ v))) low
      (by simpa using hlen)
    rw [hmap] at hB
    obtain ⟨b, hb⟩ := hB
    have h1 := hb t (by omega)
    have h2 := hb (t + 1) (by omega)
    rw [show low + (t + 1) = low + t + 1 from rfl] at h2
    rw [map_getD_in (fun v : α => decide (c ≤ v)) _ (low + t) (by omega) default false] at h1
    rw [map_getD_in (fun v : α => decide (c ≤ v)) _ (low + t + 1) (by omega) default false]
      at h2
    rw [← hc, decide_eq_true (le_refl c)] at h2
    have hfb : decide (c ≤ (bitonic_sort_recursive arr low (2 ^ e) false).getD
        (low + t) default) = false := decide_eq_false (not_le_of_lt hlt)
    rw [hfb] at h1
    have hp1 := of_decide_eq_true h2.symm
    have hp2 := of_decide_eq_false h1.symm
    omega
  · rw [if_pos rfl]
    by_contra hcon
    have hlt : (bitonic_sort_recursive arr low (2 ^ e) true).getD (low + t + 1) default <
        (bitonic_sort_recursive arr low (2 ^ e) true).getD (low + t) default :=
      lt_of_not_le hcon
    set c := (bitonic_sort_recursive arr low (2 ^ e) true).getD (low + t) default with hc
    have hmap := bitonic_sort_recursive_map (fun v : α => decide (c ≤ v))
      (threshold_monotone c) (2 ^ e) arr low true hlen
    have hB := bsr_asc_bool e (arr.map (fun v : α => decide (c ≤ v))) low
      (by simpa using hlen)
    rw [hmap] at hB
    obtain ⟨a, ha⟩ := hB
    have h1 := ha t (by omega)
    have h2 := ha (t + 1) (by omega)
    rw [show low + (t + 1) = low + t + 1 from rfl] at h2
    rw [map_getD_in (fun v : α => decide (c ≤ v)) _ (low + t) (by omega) default false] at h1
    rw [map_getD_in (fun v : α => decide (c ≤ v)) _ (low + t + 1) (by omega) default false]
      at h2
    rw [← hc, decide_eq_true (le_refl c)] at h1
    have hfb : decide (c ≤ (bitonic_sort_recursive arr low (2 ^ e) true).getD
        (low + t + 1) default) = false := decide_eq_false (not_le_of_lt hlt)
    rw [hfb] at h2
    have hp1 := of_decide_eq_true h1.symm
    have hp2 := of_decide_eq_false h2.symm
    omega

theorem segmentMonotone_full_sorted (l : List α) (n : Nat) (hn : l.length = n)
    (h : SegmentMonotone l 0 n true) : List.Sorted (fun a b => a ≤ b) l := by
  rw [List.Sorted, ← List.chain'_iff_pairwise, List.chain'_iff_get]
  intro i hi
  have hadj := h i (by omega)
  rw [if_pos rfl] at hadj
  rw [List.getD_eq_getElem _ _ (by omega), List.getD_eq_getElem _ _ (by omega)] at hadj
  simpa using hadj

theorem bitonic_sort_sorted (e : Nat) (arr : List α) (hlen : arr.length = 2 ^ e) :
    List.Sorted (fun a b => a ≤ b) (bitonic_sort arr (2 ^ e)) := by
  apply segmentMonotone_full_sorted _ (2 ^ e)
    (by rw [bitonic_sort, length_bitonic_sort_recursive, hlen])
  have := bitonic_sort_recursive_sorted e arr 0 true (by omega)
  unfold bitonic_sort
  intro t ht
  exact this t ht

end ZeroOneTransfer

section OmpPerm

variable {α : Type} [LinearOrder α] [Inhabited α]

theorem set_swap_perm (arr : List α) (i j : Nat) (hi : i < arr.length)
    (hj : j < arr.length) :
    ((arr.set i (arr.getD j default)).set j (arr.getD i default)).Perm arr := by
  rw [List.getD_eq_getElem _ _ hi, List.getD_eq_getElem _ _ hj]
  rw [List.perm_iff_count]
  intro v
  have hj' : j < (arr.set i arr[j]).length := by simpa using hj
  have h1 := count_set_balance (arr.set i arr[j]) j arr[i] hj' v
  have h2 := count_set_balance arr i arr[j] hi v
  have h3 : (arr.set i arr[j])[j] = arr[j] := by
    rw [List.getElem_set]
    split <;> simp_all
  rw [h3] at h1
  split_ifs at h1 h2 <;> omega

theorem length_ompInner (data : List α) (k j i : Nat) :
    (ompInner data k j i).length = data.length := by
  unfold ompInner
  dsimp only
  split
  · split <;> simp
  · rfl

theorem ompInner_perm (data : List α) (k j i : Nat) (hi : i < data.length)
    (hixj : i ^^^ j < data.length) : (ompInner data k j i).Perm data := by
  unfold ompInner
  dsimp only
  split
  · split
    · exact set_swap_perm data i (i ^^^ j) hi hixj
    · exact List.Perm.refl data
  · exact List.Perm.refl data

theorem ompPass_fold_perm (k j n : Nat) :
    ∀ (ts : List Nat) (data : List α), data.length = n → (∀ i ∈ ts, i < n) →
      (∀ i ∈ ts, i ^^^ j < n) →
      ((ts.foldl (fun acc i => ompInner acc k j i) data)).Perm data := by
  intro ts
  induction ts with
  | nil => intro data _ _ _; exact List.Perm.refl data
  | cons i ts ih =>
    intro data hlen hmem hmemx
    rw [List.foldl_cons]
    have hperm1 : (ompInner data k j i).Perm data :=
      ompInner_perm data k j i (by rw [hlen]; exact hmem i (by simp))
        (by rw [hlen]; exact hmemx i (by simp))
    have hlen1 : (ompInner data k j i).length = n := by
      rw [length_ompInner, hlen]
    exact (ih (ompInner data k j i) hlen1
      (fun i' hi' => hmem i' (by simp [hi']))
      (fun i' hi' => hmemx i' (by simp [hi']))).trans hperm1

theorem ompPass_perm (data : List α) (n k j : Nat) (hlen : data.length = n)
    (e : Nat) (hpow : n = 2 ^ e) (hj : j < n) :
    (ompPass data n k j).Perm data := by
  unfold ompPass
  apply ompPass_fold_perm k j n (List.range n) data hlen
  · intro i hi
    rw [List.mem_range] at hi
    exact hi
  · intro i hi
    rw [List.mem_range] at hi
    rw [hpow] at hi hj ⊢
    exact Nat.xor_lt_two_pow hi hj

theorem length_ompPass (data : List α) (n k j : Nat) :
    (ompPass data n k j).length = data.length := by
  unfold ompPass
  generalize List.range n = ts
  induction ts generalizing data with
  | nil => rfl
  | cons i ts ih =>
    rw [List.foldl_cons, ih, length_ompInner]

theorem ompJLoop_perm (data : List α) (n k j : Nat) (hlen : data.length = n)
    (e : Nat) (hpow : n = 2 ^ e) (hj : j < n) :
    (ompJLoop data n k j).Perm data := by
  induction j using Nat.strong_induction_on generalizing data with
  | _ j ih =>
    rw [ompJLoop]
    split
    · rename_i h0
      exact ((ih (j / 2) (by omega) (ompPass data n k j)
        (by rw [length_ompPass, hlen]) (by omega)).trans
        (ompPass_perm data n k j hlen e hpow hj))
    · exact List.Perm.refl data

theorem length_ompJLoop (data : List α) (n k j : Nat) :
    (ompJLoop data n k j).length = data.length := by
  induction j using Nat.strong_induction_on generalizing data with
  | _ j ih =>
    rw [ompJLoop]
    split
    · rename_i h0
      rw [ih (j / 2) (by omega), length_ompPass]
    · rfl

theorem ompKLoop_perm (fuel : Nat) :
    ∀ (data : List α) (n k : Nat), n + 1 - k ≤ fuel → data.length = n →
      ∀ (e : Nat), n = 2 ^ e → 0 < k →
      (ompKLoop data n k).Perm data := by
  induction fuel with
  | zero =>
    intro data n k hfuel hlen e hpow hk
    rw [ompKLoop, if_neg (by omega)]
  | succ fuel ih =>
    intro data n k hfuel hlen e hpow hk
    rw [ompKLoop]
    split
    · rename_i hcond
      have hj : k / 2 < n := by omega
      exact ((ih (ompJLoop data n k (k / 2)) n (2 * k) (by omega)
        (by rw [length_ompJLoop, hlen]) e hpow (by omega)).trans
        (ompJLoop_perm data n k (k / 2) hlen e hpow hj))
    · exact List.Perm.refl data

theorem bitonic_sort_openmp_perm (data : List α) (e : Nat)
    (hlen : data.length = 2 ^ e) :
    (bitonic_sort_openmp data (2 ^ e)).Perm data := by
  unfold bitonic_sort_openmp
  exact ompKLoop_perm (2 ^ e + 1) data (2 ^ e) 2 (by omega) hlen e rfl (by omega)

end OmpPerm

section MergeSorted

variable {α : Type} [LinearOrder α]

theorem twoPointerMerge_perm (l : List α) : ∀ (r : List α),
    (twoPointerMerge l r).Perm (l ++ r) := by
  induction l with
  | nil =>
    intro r
    rw [twoPointerMerge]
    simp
  | cons x xs ihx =>
    intro r
    induction r with
    | nil =>
      rw [twoPointerMerge]
      simp
    | cons y ys ihy =>
      rw [twoPointerMerge]
      split
      · exact List.Perm.cons x (ihx (y :: ys))
      · exact (List.Perm.cons y ihy).trans List.perm_middle.symm

theorem twoPointerMerge_mem (l r : List α) (v : α) (hv : v ∈ twoPointerMerge l r) :
    v ∈ l ∨ v ∈ r := by
  have := (twoPointerMerge_perm l r).subset hv
  rwa [List.mem_append] at this

theorem twoPointerMerge_sorted (l : List α) : ∀ (r : List α),
    l.Sorted (fun a b => a ≤ b) → r.Sorted (fun a b => a ≤ b) →
    (twoPointerMerge l r).Sorted (fun a b => a ≤ b) := by
  induction l with
  | nil =>
    intro r _ hr
    rw [twoPointerMerge]
    exact hr
  | cons x xs ihx =>
    intro r hl
    induction r with
    | nil =>
      intro _
      rw [twoPointerMerge]
      exact hl
    | cons y ys ihy =>
      intro hr
      rw [twoPointerMerge]
      rw [List.sorted_cons] at hl hr
      split
      · rename_i hxy
        rw [List.sorted_cons]
        constructor
        · intro b hb
          rcases twoPointerMerge_mem xs (y :: ys) b hb with hbl | hbr
          · exact hl.1 b hbl
          · rcases List.mem_cons.mp hbr with hby | hbys
            · rw [hby]; exact hxy
            · exact le_trans hxy (hr.1 b hbys)
        · exact ihx (y :: ys) hl.2 (List.sorted_cons.mpr hr)
      · rename_i hxy
        rw [not_le] at hxy
        rw [List.sorted_cons]
        constructor
        · intro b hb
          rcases twoPointerMerge_mem (x :: xs) ys b hb with hbl | hbr
          · rcases List.mem_cons.mp hbl with hbx | hbxs
            · rw [hbx]; exact le_of_lt hxy
            · exact le_trans (le_of_lt hxy) (hl.1 b hbxs)
          · exact hr.1 b hbr
        · exact ihy hr.2

theorem sorted_take (l : List α) (n : Nat) (h : l.Sorted (fun a b => a ≤ b)) :
    (l.take n).Sorted (fun a b => a ≤ b) :=
  h.sublist (List.take_sublist n l)

theorem sorted_drop (l : List α) (n : Nat) (h : l.Sorted (fun a b => a ≤ b)) :
    (l.drop n).Sorted (fun a b => a ≤ b) :=
  h.sublist (List.drop_sublist n l)

theorem merge_exchange_sorted (local_n : Nat) (a b : List α) (asc : Bool)
    (ha : a.Sorted (fun x y => x ≤ y)) (hb : b.Sorted (fun x y => x ≤ y)) :
    (merge_exchange local_n a b asc).Sorted (fun x y => x ≤ y) := by
  unfold merge_exchange
  dsimp only
  split
  · exact sorted_take _ _ (twoPointerMerge_sorted a b ha hb)
  · exact sorted_drop _ _ (twoPointerMerge_sorted a b ha hb)

theorem optimized_merge_split_sorted (size : Nat) (a b : List α)
    (my_rank partner : Nat) (asc : Bool)
    (ha : a.Sorted (fun x y => x ≤ y)) (hb : b.Sorted (fun x y => x ≤ y)) :
    (optimized_merge_split size a b my_rank partner asc).Sorted (fun x y => x ≤ y) := by
  unfold optimized_merge_split
  dsimp only
  split
  · exact sorted_take _ _ (twoPointerMerge_sorted a b ha hb)
  · exact sorted_drop _ _ (twoPointerMerge_sorted a b ha hb)

theorem sorted_getD (blocks : List (List α)) (r : Nat)
    (h : ∀ b ∈ blocks, b.Sorted (fun x y => x ≤ y)) :
    (blocks.getD r []).Sorted (fun x y => x ≤ y) := by
  by_cases hr : r < blocks.length
  · rw [List.getD_eq_getElem _ _ hr]
    exact h _ (List.getElem_mem hr)
  · rw [List.getD_eq_default _ _ (by omega)]
    exact List.sorted_nil

theorem exchangeRound_sorted (blocks : List (List α)) (local_n j k : Nat)
    (h : ∀ b ∈ blocks, b.Sorted (fun x y => x ≤ y)) :
    ∀ b ∈ exchangeRound blocks local_n j k, b.Sorted (fun x y => x ≤ y) := by
  intro b hb
  unfold exchangeRound at hb
  rw [List.mem_map] at hb
  obtain ⟨rank, _, hbeq⟩ := hb
  rw [← hbeq]
  exact merge_exchange_sorted local_n _ _ _ (sorted_getD blocks rank h)
    (sorted_getD blocks (rank ^^^ j) h)

theorem dbJLoop_sorted (blocks : List (List α)) (local_n k j : Nat)
    (h : ∀ b ∈ blocks, b.Sorted (fun x y => x ≤ y)) :
    ∀ b ∈ dbJLoop blocks local_n k j, b.Sorted (fun x y => x ≤ y) := by
  induction j using Nat.strong_induction_on generalizing blocks with
  | _ j ih =>
    rw [dbJLoop]
    split
    · exact ih (j / 2) (by omega) _ (exchangeRound_sorted blocks local_n j k h)
    · exact h

theorem dbKLoop_sorted (fuel : Nat) :
    ∀ (blocks : List (List α)) (local_n world_size k : Nat),
      world_size + 1 - k ≤ fuel → 0 < k →
      (∀ b ∈ blocks, b.Sorted (fun x y => x ≤ y)) →
      ∀ b ∈ dbKLoop blocks local_n world_size k, b.Sorted (fun x y => x ≤ y) := by
  induction fuel with
  | zero =>
    intro blocks local_n world_size k hfuel hk h
    rw [dbKLoop, if_neg (by omega)]
    exact h
  | succ fuel ih =>
    intro blocks local_n world_size k hfuel hk h
    rw [dbKLoop]
    split
    · rename_i hcond
      exact ih _ local_n world_size (2 * k) (by omega) (by omega)
        (dbJLoop_sorted blocks local_n k (k / 2) h)
    · exact h

theorem distributed_bitonic_sorted (blocks : List (List α)) (local_n world_size : Nat)
    (h : ∀ b ∈ blocks, b.Sorted (fun x y => x ≤ y)) :
    ∀ b ∈ distributed_bitonic blocks local_n world_size,
      b.Sorted (fun x y => x ≤ y) := by
  unfold distributed_bitonic
  exact dbKLoop_sorted (world_size + 1) blocks local_n world_size 2 (by omega) (by omega) h

theorem mpiRound_sorted (blocks : List (List α)) (local_size step stage : Nat)
    (h : ∀ b ∈ blocks, b.Sorted (fun x y => x ≤ y)) :
    ∀ b ∈ mpiRound blocks local_size step stage, b.Sorted (fun x y => x ≤ y) := by
  intro b hb
  unfold mpiRound at hb
  rw [List.mem_map] at hb
  obtain ⟨rank, _, hbeq⟩ := hb
  rw [← hbeq]
  dsimp only
  split
  · exact optimized_merge_split_sorted local_size _ _ _ _ _
      (sorted_getD blocks rank h) (sorted_getD blocks (rank ^^^ step) h)
  · exact sorted_getD blocks rank h

theorem mpiStepLoop_sorted (blocks : List (List α)) (local_size stage step : Nat)
    (h : ∀ b ∈ blocks, b.Sorted (fun x y => x ≤ y)) :
    ∀ b ∈ mpiStepLoop blocks local_size stage step, b.Sorted (fun x y => x ≤ y) := by
  induction step using Nat.strong_induction_on generalizing blocks with
  | _ step ih =>
    rw [mpiStepLoop]
    split
    · exact ih (step / 2) (by omega) _ (mpiRound_sorted blocks local_size step stage h)
    · exact h

theorem mpiStageLoop_sorted (fuel : Nat) :
    ∀ (blocks : List (List α)) (local_size num_procs stage : Nat),
      num_procs - stage ≤ fuel → 0 < stage →
      (∀ b ∈ blocks, b.Sorted (fun x y => x ≤ y)) →
      ∀ b ∈ mpiStageLoop blocks local_size num_procs stage,
        b.Sorted (fun x y => x ≤ y) := by
  induction fuel with
  | zero =>
    intro blocks local_size num_procs stage hfuel hs h
    rw [mpiStageLoop, if_neg (by omega)]
    exact h
  | succ fuel ih =>
    intro blocks local_size num_procs stage hfuel hs h
    rw [mpiStageLoop]
    split
    · rename_i hcond
      exact ih _ local_size num_procs (2 * stage) (by omega) (by omega)
        (mpiStepLoop_sorted blocks local_size stage stage h)
    · exact h

theorem mpi_exchange_phase_sorted (blocks : List (List α)) (local_size num_procs : Nat)
    (h : ∀ b ∈ blocks, b.Sorted (fun x y => x ≤ y)) :
    ∀ b ∈ mpi_exchange_phase blocks local_size num_procs,
      b.Sorted (fun x y => x ≤ y) := by
  unfold mpi_exchange_phase
  exact mpiStageLoop_sorted num_procs blocks local_size num_procs 1 (by omega) (by omega) h

end MergeSorted

section Partitioner

theorem nptLoop_spec (fuel : Nat) :
    ∀ (n p : Nat), n - p ≤ fuel → (∃ a, p = 2 ^ a) →
      (∃ c, nptLoop n p = 2 ^ c ∧ p ≤ 2 ^ c) ∧ n ≤ nptLoop n p ∧
      (∀ c, n ≤ 2 ^ c → p ≤ 2 ^ c → nptLoop n p ≤ 2 ^ c) := by
  induction fuel with
  | zero =>
    intro n p hfuel hpow
    obtain ⟨a, rfl⟩ := hpow
    have hp : 0 < (2 : Nat) ^ a := by positivity
    rw [nptLoop, if_neg (by omega)]
    exact ⟨⟨a, rfl, le_refl _⟩, by omega, fun c _ hc => hc⟩
  | succ fuel ih =>
    intro n p hfuel hpow
    obtain ⟨a, rfl⟩ := hpow
    have hp : 0 < (2 : Nat) ^ a := by positivity
    by_cases hcond : (2 : Nat) ^ a < n ∧ 0 < (2 : Nat) ^ a
    · rw [nptLoop, if_pos hcond]
      have h2p : 2 * 2 ^ a = 2 ^ (a + 1) := by rw [pow_succ]; ring
      obtain ⟨⟨c, hc1, hc2⟩, hge, hmin⟩ := ih n (2 * 2 ^ a) (by omega)
        ⟨a + 1, by rw [h2p]⟩
      refine ⟨⟨c, hc1, by omega⟩, hge, ?_⟩
      intro c' hnc' hpc'
      apply hmin c' hnc'
      rw [h2p]
      have hac : a < c' := by
        have := (Nat.pow_lt_pow_iff_right (by omega : 1 < 2)).mp
          (lt_of_lt_of_le hcond.1 hnc')
        exact this
      exact Nat.pow_le_pow_right (by omega) (by omega)
    · rw [nptLoop, if_neg hcond]
      exact ⟨⟨a, rfl, le_refl _⟩, by omega, fun c _ hc => hc⟩

theorem next_power_of_two_spec (n : Nat) :
    (∃ c, next_power_of_two n = 2 ^ c) ∧ n ≤ next_power_of_two n ∧
    (∀ c, n ≤ 2 ^ c → next_power_of_two n ≤ 2 ^ c) := by
  unfold next_power_of_two
  obtain ⟨⟨c, h1, _⟩, h2, h3⟩ := nptLoop_spec n n 1 (by omega) ⟨0, by norm_num⟩
  exact ⟨⟨c, h1⟩, h2, fun c' hc' => h3 c' hc' Nat.one_le_two_pow⟩

theorem padLoop_spec (fuel : Nat) :
    ∀ (P padded q c : Nat), P - padded ≤ fuel → P = 2 ^ q → padded = 2 ^ c →
      padLoop P padded = max padded P := by
  induction fuel with
  | zero =>
    intro P padded q c hfuel hP hpad
    have hp : 0 < padded := by rw [hpad]; positivity
    have hPpos : 0 < P := by rw [hP]; positivity
    rw [padLoop, dif_neg (by omega)]
    omega
  | succ fuel ih =>
    intro P padded q c hfuel hP hpad
    have hp : 0 < padded := by rw [hpad]; positivity
    have hPpos : 0 < P := by rw [hP]; positivity
    by_cases hdvd : padded % P = 0
    · rw [padLoop, dif_neg (by omega)]
      have hdvd' : P ∣ padded := Nat.dvd_of_mod_eq_zero hdvd
      have := Nat.le_of_dvd hp hdvd'
      omega
    · have hlt : padded < P := by
        by_contra hge
        have hcq : q ≤ c := (Nat.pow_le_pow_iff_right (by omega : 1 < 2)).mp
          (by rw [← hP, ← hpad]; omega)
        have : P ∣ padded := by
          rw [hP, hpad]
          exact pow_dvd_pow 2 hcq
        exact hdvd (Nat.mod_eq_zero_of_dvd this)
      rw [padLoop, dif_pos ⟨hdvd, hlt⟩]
      have h2p : 2 * padded = 2 ^ (c + 1) := by rw [hpad, pow_succ]; ring
      have hres := ih P (2 * padded) q (c + 1) (by omega) hP h2p
      have h2le : 2 * padded ≤ P := by
        have hcq : c < q := (Nat.pow_lt_pow_iff_right (by omega : 1 < 2)).mp
          (by rw [← hP, ← hpad]; omega)
        rw [h2p, hP]
        exact Nat.pow_le_pow_right (by omega) (by omega)
      omega

end Partitioner

section PowTwoTrick

theorem testBit_of_between (n k : Nat) (h1 : 2 ^ k ≤ n) (h2 : n < 2 ^ (k + 1)) :
    n.testBit k = true := by
  rw [Nat.testBit_to_div_mod, decide_eq_true_eq]
  have hpow : 2 ^ (k + 1) = 2 ^ k + 2 ^ k := by rw [pow_succ]; ring
  have hdiv : n / 2 ^ k = 1 := by
    apply Nat.div_eq_of_lt_le (by omega)
    omega
  rw [hdiv]

theorem and_pred_eq_zero_iff (n : Nat) (hn : 0 < n) :
    (n &&& (n - 1)) = 0 ↔ ∃ k, n = 2 ^ k := by
  constructor
  · intro hand
    refine ⟨n.log2, ?_⟩
    have h1 : 2 ^ n.log2 ≤ n := Nat.log2_self_le (by omega)
    have h2 : n < 2 ^ (n.log2 + 1) := Nat.lt_log2_self
    by_contra hne
    have hgt : 2 ^ n.log2 < n := by omega
    have hb1 : n.testBit n.log2 = true := testBit_of_between n n.log2 h1 h2
    have hb2 : (n - 1).testBit n.log2 = true :=
      testBit_of_between (n - 1) n.log2 (by omega) (by omega)
    have hb := congrArg (fun m => m.testBit n.log2) hand
    simp only [Nat.testBit_and, hb1, hb2, Bool.and_self, Nat.zero_testBit] at hb
    exact Bool.noConfusion hb
  · rintro ⟨k, rfl⟩
    apply Nat.eq_of_testBit_eq
    intro i
    rw [Nat.testBit_and, Nat.testBit_two_pow, Nat.testBit_two_pow_sub_one,
      Nat.zero_testBit]
    rcases Nat.lt_or_ge i k with hik | hik
    · rw [decide_eq_false (by omega : ¬ k = i)]
      rfl
    · rw [decide_eq_false (by omega : ¬ i < k), Bool.and_false]

theorem mpi_validate_iff (total_size num_procs : Nat)
    (ht : 0 < total_size) (hp : 0 < num_procs) :
    mpi_validate total_size num_procs = true ↔
      (∃ a, total_size = 2 ^ a) ∧ (∃ b, num_procs = 2 ^ b) ∧
        num_procs ∣ total_size := by
  unfold mpi_validate
  rw [Bool.not_eq_eq_eq_not, Bool.not_true, decide_eq_false_iff_not]
  push_neg
  constructor
  · rintro ⟨_, h2, h3, h4⟩
    exact ⟨(and_pred_eq_zero_iff total_size ht).mp h2,
      (and_pred_eq_zero_iff num_procs hp).mp h3,
      Nat.dvd_of_mod_eq_zero h4⟩
  · rintro ⟨h1, h2, h3⟩
    exact ⟨by omega, (and_pred_eq_zero_iff total_size ht).mpr h1,
      (and_pred_eq_zero_iff num_procs hp).mpr h2,
      Nat.mod_eq_zero_of_dvd h3⟩

theorem openmp_bitonic_validate_iff (size : Nat) (hs : 0 < size) :
    openmp_bitonic_validate size = true ↔ ∃ a, size = 2 ^ a := by
  unfold openmp_bitonic_validate
  rw [Bool.not_eq_eq_eq_not, Bool.not_true, decide_eq_false_iff_not]
  push_neg
  constructor
  · rintro ⟨_, h2⟩
    exact (and_pred_eq_zero_iff size hs).mp h2
  · intro h1
    exact ⟨by omega, (and_pred_eq_zero_iff size hs).mpr h1⟩

end PowTwoTrick

section PaddingScatter

theorem padWithSentinel_length (values : List Int) (size : Nat)
    (h : values.length ≤ size) : (padWithSentinel values size).length = size := by
  unfold padWithSentinel
  rw [List.length_append, List.length_replicate]
  omega

theorem padWithSentinel_getD_sentinel (values : List Int) (size i : Nat)
    (h1 : values.length ≤ i) (h2 : i < size) :
    (padWithSentinel values size).getD i 0 = INT_MAX := by
  have hlen : (padWithSentinel values size).length = size :=
    padWithSentinel_length values size (by omega)
  rw [List.getD_eq_getElem _ _ (by omega)]
  unfold padWithSentinel
  rw [List.getElem_append_right (by omega)]
  simp

theorem padWithSentinel_getD_data (values : List Int) (size i : Nat)
    (h1 : i < values.length) :
    (padWithSentinel values size).getD i 0 = values.getD i 0 := by
  unfold padWithSentinel
  rw [List.getD_eq_getElem _ _ (by rw [List.length_append]; omega),
    List.getD_eq_getElem _ _ h1]
  exact List.getElem_append_left h1

theorem scatterBlocks_length (data : List Int) (P local_n : Nat) :
    (scatterBlocks data P local_n).length = P := by
  unfold scatterBlocks
  rw [List.length_map, List.length_range]

theorem scatterBlocks_block_length (data : List Int) (P local_n r : Nat)
    (hr : r < P) (hdata : data.length = P * local_n) :
    ((scatterBlocks data P local_n).getD r []).length = local_n := by
  unfold scatterBlocks
  rw [List.getD_eq_getElem _ _ (by rw [List.length_map, List.length_range]; exact hr)]
  rw [List.getElem_map, List.getElem_range]
  rw [List.length_take, List.length_drop, hdata]
  have hmul : (r + 1) * local_n ≤ P * local_n :=
    Nat.mul_le_mul_right local_n (by omega)
  have hrl : r * local_n + local_n ≤ P * local_n := by
    rw [Nat.add_mul] at hmul
    omega
  omega

end PaddingScatter

section SpecRoundsEquiv

variable {α : Type} [LinearOrder α]

theorem mpiStepLoop_eq_runRounds (local_size stage : Nat) :
    ∀ (step : Nat) (bs : List (List α)),
      mpiStepLoop bs local_size stage step =
        runRoundsMpi bs local_size ((specSteps step).map fun t => (stage, t))
          (fun rank s => decide ((rank &&& s) = 0)) := by
  intro step
  induction step using Nat.strong_induction_on with
  | _ step ih =>
    intro bs
    rw [mpiStepLoop, specSteps]
    split
    · rename_i h0
      rw [ih (step / 2) (by omega) (mpiRound bs local_size step stage)]
      rfl
    · rfl

theorem mpiStageLoop_eq_runRounds (fuel : Nat) :
    ∀ (bs : List (List α)) (local_size num_procs stage : Nat),
      num_procs - stage ≤ fuel →
      mpiStageLoop bs local_size num_procs stage =
        runRoundsMpi bs local_size
          ((specStages num_procs stage).flatMap fun s => (specSteps s).map fun t => (s, t))
          (fun rank s => decide ((rank &&& s) = 0)) := by
  induction fuel with
  | zero =>
    intro bs local_size num_procs stage hfuel
    rw [mpiStageLoop, specStages]
    by_cases hc : 0 < stage ∧ stage < num_procs
    · omega
    · rw [if_neg hc, if_neg hc]
      rfl
  | succ fuel ih =>
    intro bs local_size num_procs stage hfuel
    rw [mpiStageLoop, specStages]
    by_cases hc : 0 < stage ∧ stage < num_procs
    · rw [if_pos hc, if_pos hc, List.flatMap_cons]
      unfold runRoundsMpi
      rw [List.foldl_append]
      rw [ih (mpiStepLoop bs local_size stage stage) local_size num_procs (2 * stage)
        (by omega)]
      rw [mpiStepLoop_eq_runRounds local_size stage stage]
      rfl
    · rw [if_neg hc, if_neg hc]
      rfl

theorem mpi_exchange_phase_eq_specRounds (bs : List (List α)) (local_size num_procs : Nat) :
    mpi_exchange_phase bs local_size num_procs =
      runRoundsMpi bs local_size (specRounds num_procs)
        (fun rank s => decide ((rank &&& s) = 0)) := by
  unfold mpi_exchange_phase specRounds
  exact mpiStageLoop_eq_runRounds num_procs bs local_size num_procs 1 (by omega)

theorem dbJLoop_eq_runRounds (local_n s : Nat) :
    ∀ (j : Nat) (bs : List (List α)),
      dbJLoop bs local_n (2 * s) j =
        runRoundsV1 bs local_n ((specSteps j).map fun t => (s, t))
          (fun rank st => decide ((rank &&& (2 * st)) = 0)) := by
  intro j
  induction j using Nat.strong_induction_on with
  | _ j ih =>
    intro bs
    rw [dbJLoop, specSteps]
    split
    · rename_i h0
      rw [ih (j / 2) (by omega) (exchangeRound bs local_n j (2 * s))]
      rfl
    · rfl

theorem dbKLoop_eq_runRounds (fuel : Nat) :
    ∀ (bs : List (List α)) (local_n world_size k a q : Nat),
      world_size + 1 - k ≤ fuel → k = 2 ^ (a + 1) → world_size = 2 ^ q →
      dbKLoop bs local_n world_size k =
        runRoundsV1 bs local_n
          ((specStages world_size (2 ^ a)).flatMap fun s => (specSteps s).map fun t => (s, t))
          (fun rank st => decide ((rank &&& (2 * st)) = 0)) := by
  induction fuel with
  | zero =>
    intro bs local_n world_size k a q hfuel hk hw
    have hka : (2:Nat) ^ (a + 1) = 2 * 2 ^ a := by rw [pow_succ]; ring
    have hp : 0 < (2:Nat) ^ a := by positivity
    rw [dbKLoop, specStages]
    have hcond : ¬ (0 < k ∧ k ≤ world_size) := by omega
    rw [if_neg hcond, if_neg (by
      intro hcc
      apply hcond
      constructor
      · omega
      · rw [hk, hw, hka]
        rw [hw] at hcc
        have := (Nat.pow_lt_pow_iff_right (by omega : 1 < 2)).mp hcc.2
        calc 2 * 2 ^ a = 2 ^ (a + 1) := by rw [pow_succ]; ring
        _ ≤ 2 ^ q := Nat.pow_le_pow_right (by omega) (by omega))]
    rfl
  | succ fuel ih =>
    intro bs local_n world_size k a q hfuel hk hw
    have hka : k = 2 * 2 ^ a := by rw [hk, pow_succ]; ring
    have hp : 0 < (2:Nat) ^ a := by positivity
    rw [dbKLoop, specStages]
    by_cases hcond : 0 < k ∧ k ≤ world_size
    · have hspec : 0 < 2 ^ a ∧ 2 ^ a < world_size := by
        constructor
        · exact hp
        · rw [hw]
          rw [hk, hw] at hcond
          have hle := (Nat.pow_le_pow_iff_right (by omega : 1 < 2)).mp hcond.2
          exact (Nat.pow_lt_pow_iff_right (by omega : 1 < 2)).mpr (by omega)
      rw [if_pos hcond, if_pos hspec, List.flatMap_cons]
      unfold runRoundsV1
      rw [List.foldl_append]
      have hstep : dbJLoop bs local_n k (k / 2) =
          runRoundsV1 bs local_n ((specSteps (2 ^ a)).map fun t => (2 ^ a, t))
            (fun rank st => decide ((rank &&& (2 * st)) = 0)) := by
        have hhalf : k / 2 = 2 ^ a := by omega
        rw [hhalf, hka]
        exact dbJLoop_eq_runRounds local_n (2 ^ a) (2 ^ a) bs
      rw [hstep]
      have hnext : 2 * k = 2 ^ (a + 1 + 1) := by rw [hk, pow_succ]; ring
      rw [ih _ local_n world_size (2 * k) (a + 1) q (by omega) hnext hw]
      rw [show (2:Nat) * 2 ^ a = 2 ^ (a + 1) from by rw [pow_succ]; ring]
      rfl
    · have hspec : ¬ (0 < 2 ^ a ∧ 2 ^ a < world_size) := by
        intro hcc
        apply hcond
        constructor
        · omega
        · rw [hw] at hcc
          have := (Nat.pow_lt_pow_iff_right (by omega : 1 < 2)).mp hcc.2
          rw [hk, hw]
          exact Nat.pow_le_pow_right (by omega) (by omega)
      rw [if_neg hcond, if_neg hspec]
      rfl

theorem distributed_bitonic_eq_specRounds (bs : List (List α)) (local_n : Nat)
    (world_size q : Nat) (hw : world_size = 2 ^ q) :
    distributed_bitonic bs local_n world_size =
      runRoundsV1 bs local_n (specRounds world_size)
        (fun rank st => decide ((rank &&& (2 * st)) = 0)) := by
  unfold distributed_bitonic specRounds
  have := dbKLoop_eq_runRounds (world_size + 1) bs local_n world_size 2 0 q
    (by omega) (by norm_num) hw
  rw [this]
  norm_num

end SpecRoundsEquiv

section Evidence

theorem five_not_pow2 : ¬ ∃ k, (5 : Nat) = 2 ^ k := by
  rintro ⟨k, hk⟩
  rcases Nat.lt_or_ge k 3 with h | h
  · interval_cases k <;> norm_num at hk
  · have h8 : (2 : Nat) ^ 3 ≤ 2 ^ k := Nat.pow_le_pow_right (by omega) h
    norm_num at h8
    omega

end Evidence

/-- C3 evidence: starting from locally sorted power-of-two blocks `[1,2]` and
`[3,4]` on a power-of-two worker count of 2, both distributed executors leave
both ranks holding `[1,2]` (each pair keeps the same half of the merge), so
the rank-order concatenation `[1,2,1,2]` is not globally sorted ascending. -/
theorem C3_distributed_sort_not_sorted :
    (∀ b ∈ ([[1, 2], [3, 4]] : List (List Int)), b.Sorted (fun a b => a ≤ b)) ∧
    distributed_bitonic ([[1, 2], [3, 4]] : List (List Int)) 2 2 = [[1, 2], [1, 2]] ∧
    advanced_bitonic_sort_mpi ([[1, 2], [3, 4]] : List (List Int)) 2 2 = [[1, 2], [1, 2]] ∧
    ¬ (distributed_bitonic ([[1, 2], [3, 4]] : List (List Int)) 2 2).flatten.Sorted
        (fun a b => a ≤ b) := by
  refine ⟨by decide, ?_, ?_, ?_⟩
  · simp [distributed_bitonic, dbKLoop, dbJLoop, exchangeRound, merge_exchange,
      twoPointerMerge, List.range_succ]
  · simp [advanced_bitonic_sort_mpi, mpi_exchange_phase, mpiStageLoop, mpiStepLoop,
      mpiRound, optimized_merge_split, twoPointerMerge, bitonic_sort,
      bitonic_sort_recursive, bitonic_merge, casLayer, compare_and_swap,
      List.range_succ]
  · simp [distributed_bitonic, dbKLoop, dbJLoop, exchangeRound, merge_exchange,
      twoPointerMerge, List.range_succ]

/-- C4 evidence: in an ascending round the higher-ranked worker of part_004's
`merge_exchange` also keeps the smaller half (the keep rule ignores rank), and
in mpi_bitonic.c's first round of a stage the two partners compute opposite
directions and both keep the smaller half, so the kept halves are not
complementary and the elements `3, 4` are lost by the pair. -/
theorem C4_keep_rule_not_complementary :
    merge_exchange 2 ([3, 4] : List Int) [1, 2] true = [1, 2] ∧
    optimized_merge_split 2 ([1, 2] : List Int) [3, 4] 0 1
      (decide ((0 &&& 1 : Nat) = 0)) = [1, 2] ∧
    optimized_merge_split 2 ([3, 4] : List Int) [1, 2] 1 0
      (decide ((1 &&& 1 : Nat) = 0)) = [1, 2] := by
  refine ⟨?_, ?_, ?_⟩ <;> simp [merge_exchange, optimized_merge_split, twoPointerMerge]

set_option maxRecDepth 8000 in
/-- C7 evidence: the part_004 MPI pipeline applied to the spec's own
non-power-of-two scenario `[4,1,3,2,5]` with 2 workers pads to 8 entries,
sorts, strips back to 5 — and returns `[1,2,3,4,1]`, which is neither sorted
nor a permutation of the input (element 5 is lost, element 1 duplicated). -/
theorem C7_padding_pipeline_broken :
    mpi_v1_main [4, 1, 3, 2, 5] 2 = [1, 2, 3, 4, 1] ∧
    ¬ ([1, 2, 3, 4, 1] : List Int).Sorted (fun a b => a ≤ b) ∧
    ¬ ([1, 2, 3, 4, 1] : List Int).Perm [4, 1, 3, 2, 5] := by
  refine ⟨?_, by decide, by decide⟩
  simp [mpi_v1_main, padded_size, next_power_of_two, nptLoop, padLoop, padWithSentinel,
    INT_MAX, scatterBlocks, qsortModel, List.insertionSort, List.orderedInsert,
    distributed_bitonic, dbKLoop, dbJLoop, exchangeRound, merge_exchange,
    twoPointerMerge, List.range_succ]

set_option maxRecDepth 8000 in
/-- C8 evidence: on `[2,1,4,3]` the sequential recursive network and the
iterative OpenMP network both return `[1,2,3,4]`, but the distributed pipeline
(local sort of the scattered blocks followed by the exchange rounds, gathered
in rank order) returns `[1,2,1,2]`. -/
theorem C8_distributed_output_differs :
    bitonic_sort ([2, 1, 4, 3] : List Int) 4 = [1, 2, 3, 4] ∧
    bitonic_sort_openmp ([2, 1, 4, 3] : List Int) 4 = [1, 2, 3, 4] ∧
    (distributed_bitonic ((scatterBlocks [2, 1, 4, 3] 2 2).map qsortModel) 2 2).flatten
      = [1, 2, 1, 2] := by
  refine ⟨?_, ?_, ?_⟩
  · simp [bitonic_sort, bitonic_sort_recursive, bitonic_merge, casLayer,
      compare_and_swap, List.range_succ]
  · simp [bitonic_sort_openmp, ompKLoop, ompJLoop]
    decide
  · simp [scatterBlocks, qsortModel, List.insertionSort, List.orderedInsert,
      distributed_bitonic, dbKLoop, dbJLoop, exchangeRound, merge_exchange,
      twoPointerMerge, List.range_succ]

set_option maxRecDepth 8000 in
/-- C10 counterexample: the file-driven OpenMP executable accepts the
length-5 input `[4,1,3,2,5]` (5 is not a power of two), pads and sorts it,
and returns a result instead of reporting an error before sorting. -/
theorem C10_counterexample_openmp_pads :
    ([4, 1, 3, 2, 5] : List Int).length = 5 ∧ (¬ ∃ k, (5 : Nat) = 2 ^ k) ∧
    openmp_main [4, 1, 3, 2, 5] = some [1, 2, 3, 4, 5] := by
  refine ⟨by decide, five_not_pow2, ?_⟩
  simp [openmp_main, next_power_of_two, nptLoop, padWithSentinel, INT_MAX,
    bitonic_sort_openmp, ompKLoop, ompJLoop]
  decide

/-- C5 counterexample: part_004's `distributed_bitonic` does not perform the
spec's rounds: with two workers holding `[1]` and `[2]`, the executor returns
`[[1],[1]]` while the spec's round sequence (direction
`(rank AND stage) == 0`) returns `[[1],[2]]`. -/
theorem C5_counterexample_direction :
    distributed_bitonic ([[1], [2]] : List (List Int)) 1 2 ≠
      runRoundsV1 [[1], [2]] 1 (specRounds 2)
        (fun rank stage => decide ((rank &&& stage) = 0)) := by
  have hs0 : specSteps 0 = [] := by
    rw [specSteps, if_neg (by decide)]
  have hs1 : specSteps 1 = [1] := by
    rw [specSteps, if_pos (by decide)]
    norm_num [hs0]
  have hg2 : specStages 2 2 = [] := by
    rw [specStages, if_neg (by decide)]
  have hg1 : specStages 2 1 = [1] := by
    rw [specStages, if_pos (by decide)]
    norm_num [hg2]
  have hr : specRounds 2 = [(1, 1)] := by
    simp [specRounds, hg1, hs1]
  have h1 : distributed_bitonic ([[1], [2]] : List (List Int)) 1 2 = [[1], [1]] := by
    simp [distributed_bitonic, dbKLoop, dbJLoop, exchangeRound, merge_exchange,
      twoPointerMerge, List.range_succ]
  have h2 : runRoundsV1 ([[1], [2]] : List (List Int)) 1 (specRounds 2)
      (fun rank stage => decide ((rank &&& stage) = 0)) = [[1], [2]] := by
    rw [hr]
    simp [runRoundsV1, roundWithDir, merge_exchange, twoPointerMerge, List.range_succ]
    have hx : ([[1], [2]] : List (List Int))[1] = [2] := rfl
    rw [hx]
    simp [twoPointerMerge]
  rw [h1, h2]
  decide

/-- C1: for every integer array segment whose length is a power of two and
every direction flag, `bitonic_sort_recursive arr low (2^e) direction`
rearranges the segment into monotonic order matching the direction: every
adjacent pair of the segment satisfies `a[i] ≤ a[i+1]` when ascending and
`a[i] ≥ a[i+1]` when descending. -/
theorem C1_sequential_sort_monotone (arr : List Int) (low e : Nat) (direction : Bool)
    (h : low + 2 ^ e ≤ arr.length) :
    SegmentMonotone (bitonic_sort_recursive arr low (2 ^ e) direction) low (2 ^ e)
      direction :=
  bitonic_sort_recursive_sorted e arr low direction h

theorem C1_sequential_sort_monotone_witness :
    (0 + 2 ^ 2 ≤ ([3, 1, 2, 0] : List Int).length) ∧
    SegmentMonotone (bitonic_sort_recursive ([3, 1, 2, 0] : List Int) 0 (2 ^ 2) true)
      0 (2 ^ 2) true :=
  ⟨by decide, C1_sequential_sort_monotone [3, 1, 2, 0] 0 2 true (by decide)⟩

/-- C2: for every integer array of power-of-two length and every direction,
the multiset of elements after the recursive network and after the iterative
OpenMP network equals the multiset before it — no element is created, lost,
or altered. -/
theorem C2_permutation_invariance (arr : List Int) (e : Nat) (direction : Bool)
    (h : arr.length = 2 ^ e) :
    ((bitonic_sort_recursive arr 0 (2 ^ e) direction : List Int) : Multiset Int)
        = (arr : Multiset Int) ∧
    ((bitonic_sort_openmp arr (2 ^ e) : List Int) : Multiset Int) = (arr : Multiset Int) :=
  ⟨Multiset.coe_eq_coe.mpr (bitonic_sort_recursive_perm (2 ^ e) arr 0 direction (by omega)),
   Multiset.coe_eq_coe.mpr (bitonic_sort_openmp_perm arr e h)⟩

theorem C2_permutation_invariance_witness :
    (([2, 1, 4, 3] : List Int).length = 2 ^ 2) ∧
    (((bitonic_sort_recursive ([2, 1, 4, 3] : List Int) 0 (2 ^ 2) true : List Int) :
        Multiset Int) = (([2, 1, 4, 3] : List Int) : Multiset Int) ∧
     ((bitonic_sort_openmp ([2, 1, 4, 3] : List Int) (2 ^ 2) : List Int) : Multiset Int)
        = (([2, 1, 4, 3] : List Int) : Multiset Int)) :=
  ⟨by decide, C2_permutation_invariance [2, 1, 4, 3] 2 true (by decide)⟩

/-- C5 (amended): the actual round structure of the two distributed
executors.  mpi_bitonic.c runs exactly the spec's rounds — stage doubling
while `stage < num_procs`, step halving from `stage` to 1, partner
`rank XOR step`, direction ascending iff `(rank AND stage) == 0`.  part_004's
`distributed_bitonic` runs the same `(stage, step)` rounds and partners but
its direction is ascending iff `(rank AND 2*stage) == 0` (the code tests
`rank & k` where `k = 2*stage`), not `(rank AND stage) == 0`. -/
theorem C5_amended_round_structure (blocks blocks2 : List (List Int))
    (local_size num_procs local_n world_size q : Nat) (hw : world_size = 2 ^ q) :
    mpi_exchange_phase blocks local_size num_procs =
      runRoundsMpi blocks local_size (specRounds num_procs)
        (fun rank s => decide ((rank &&& s) = 0)) ∧
    distributed_bitonic blocks2 local_n world_size =
      runRoundsV1 blocks2 local_n (specRounds world_size)
        (fun rank st => decide ((rank &&& (2 * st)) = 0)) :=
  ⟨mpi_exchange_phase_eq_specRounds blocks local_size num_procs,
   distributed_bitonic_eq_specRounds blocks2 local_n world_size q hw⟩

theorem C5_amended_round_structure_witness :
    ((2 : Nat) = 2 ^ 1) ∧
    (mpi_exchange_phase ([[1], [2]] : List (List Int)) 1 2 =
      runRoundsMpi [[1], [2]] 1 (specRounds 2)
        (fun rank s => decide ((rank &&& s) = 0)) ∧
    distributed_bitonic ([[3], [4]] : List (List Int)) 1 2 =
      runRoundsV1 [[3], [4]] 1 (specRounds 2)
        (fun rank st => decide ((rank &&& (2 * st)) = 0))) :=
  ⟨by decide, C5_amended_round_structure [[1], [2]] [[3], [4]] 1 2 1 2 1 (by decide)⟩

/-- C6: local sortedness is an invariant of the exchange rounds.  If each
input block is sorted ascending then the kept half produced by
`merge_exchange` and by `optimized_merge_split` is sorted ascending; one
part_004 round and one mpi_bitonic.c round preserve the invariant for every
worker; and the whole exchange phase of either executor preserves it — so
the two-pointer merge's precondition holds at the start of every round. -/
theorem C6_local_sortedness_invariant (blocks : List (List Int)) (a b : List Int)
    (local_n j k local_size step stage world_size num_procs my_rank partner : Nat)
    (asc : Bool)
    (h : ∀ c ∈ blocks, c.Sorted (fun x y => x ≤ y))
    (ha : a.Sorted (fun x y => x ≤ y)) (hb : b.Sorted (fun x y => x ≤ y)) :
    (merge_exchange local_n a b asc).Sorted (fun x y => x ≤ y) ∧
    (optimized_merge_split local_size a b my_rank partner asc).Sorted
      (fun x y => x ≤ y) ∧
    (∀ c ∈ exchangeRound blocks local_n j k, c.Sorted (fun x y => x ≤ y)) ∧
    (∀ c ∈ mpiRound blocks local_size step stage, c.Sorted (fun x y => x ≤ y)) ∧
    (∀ c ∈ distributed_bitonic blocks local_n world_size,
      c.Sorted (fun x y => x ≤ y)) ∧
    (∀ c ∈ mpi_exchange_phase blocks local_size num_procs,
      c.Sorted (fun x y => x ≤ y)) :=
  ⟨merge_exchange_sorted local_n a b asc ha hb,
   optimized_merge_split_sorted local_size a b my_rank partner asc ha hb,
   exchangeRound_sorted blocks local_n j k h,
   mpiRound_sorted blocks local_size step stage h,
   distributed_bitonic_sorted blocks local_n world_size h,
   mpi_exchange_phase_sorted blocks local_size num_procs h⟩

theorem C6_local_sortedness_invariant_witness :
    ((∀ c ∈ ([[1, 2], [3, 4]] : List (List Int)), c.Sorted (fun x y => x ≤ y)) ∧
     ([1, 2] : List Int).Sorted (fun x y => x ≤ y) ∧
     ([3, 4] : List Int).Sorted (fun x y => x ≤ y)) ∧
    ((merge_exchange 2 ([1, 2] : List Int) [3, 4] true).Sorted (fun x y => x ≤ y) ∧
     (optimized_merge_split 2 ([1, 2] : List Int) [3, 4] 0 1 true).Sorted
       (fun x y => x ≤ y) ∧
     (∀ c ∈ exchangeRound ([[1, 2], [3, 4]] : List (List Int)) 2 1 2,
       c.Sorted (fun x y => x ≤ y)) ∧
     (∀ c ∈ mpiRound ([[1, 2], [3, 4]] : List (List Int)) 2 1 1,
       c.Sorted (fun x y => x ≤ y)) ∧
     (∀ c ∈ distributed_bitonic ([[1, 2], [3, 4]] : List (List Int)) 2 2,
       c.Sorted (fun x y => x ≤ y)) ∧
     (∀ c ∈ mpi_exchange_phase ([[1, 2], [3, 4]] : List (List Int)) 2 2,
       c.Sorted (fun x y => x ≤ y))) :=
  ⟨⟨by decide, by decide, by decide⟩,
   C6_local_sortedness_invariant [[1, 2], [3, 4]] [1, 2] [3, 4] 2 1 2 2 1 1 2 2 0 1 true
     (by decide) (by decide) (by decide)⟩

/-- C9: for every input length `L ≥ 1` and power-of-two worker count `P`, the
partitioner's padded size (`next_power_of_two` then doubling until divisible
by `P`) is a power of two, at least `L`, divisible by `P`, and minimal with
those properties; every position past `L` of the padded buffer holds the
sentinel `INT_MAX`; and each of the `P` scattered blocks has exactly
`padded_size / P` elements. -/
theorem C9_partitioner_padded_size (values : List Int) (L P q : Nat)
    (hL : 1 ≤ L) (hlen : values.length = L) (hP : P = 2 ^ q) :
    (∃ c, padded_size L P = 2 ^ c) ∧
    L ≤ padded_size L P ∧
    P ∣ padded_size L P ∧
    (∀ m, L ≤ m → (∃ c, m = 2 ^ c) → P ∣ m → padded_size L P ≤ m) ∧
    (∀ i, L ≤ i → i < padded_size L P →
      (padWithSentinel values (padded_size L P)).getD i 0 = INT_MAX) ∧
    (∀ r, r < P →
      ((scatterBlocks (padWithSentinel values (padded_size L P)) P
          (padded_size L P / P)).getD r []).length = padded_size L P / P) := by
  obtain ⟨⟨c, hc⟩, hle, hmin⟩ := next_power_of_two_spec L
  have hps : padded_size L P = max (next_power_of_two L) P := by
    unfold padded_size
    exact padLoop_spec P P (next_power_of_two L) q c (by omega) hP hc
  have hpow : padded_size L P = 2 ^ max c q := by
    rw [hps, hc, hP]
    rcases Nat.le_total c q with hcq | hcq
    · rw [Nat.max_eq_right (Nat.pow_le_pow_right (by omega) hcq), Nat.max_eq_right hcq]
    · rw [Nat.max_eq_left (Nat.pow_le_pow_right (by omega) hcq), Nat.max_eq_left hcq]
  have hLle : L ≤ padded_size L P := by
    rw [hps]
    exact le_trans hle (le_max_left _ _)
  have hdvd : P ∣ padded_size L P := by
    rw [hpow, hP]
    exact pow_dvd_pow 2 (le_max_right c q)
  refine ⟨⟨max c q, hpow⟩, hLle, hdvd, ?_, ?_, ?_⟩
  · rintro m hm ⟨d, hd⟩ hPd
    rw [hps]
    apply max_le
    · have := hmin d (by omega)
      omega
    · exact Nat.le_of_dvd (by omega) hPd
  · intro i hi hilt
    exact padWithSentinel_getD_sentinel values _ i (by omega) hilt
  · intro r hr
    refine scatterBlocks_block_length _ P _ r hr ?_
    rw [padWithSentinel_length _ _ (by omega)]
    exact (Nat.mul_div_cancel' hdvd).symm

theorem C9_partitioner_padded_size_witness :
    ((1 : Nat) ≤ 5 ∧ ([4, 1, 3, 2, 5] : List Int).length = 5 ∧ (2 : Nat) = 2 ^ 1) ∧
    ((∃ c, padded_size 5 2 = 2 ^ c) ∧
     5 ≤ padded_size 5 2 ∧
     2 ∣ padded_size 5 2 ∧
     (∀ m, 5 ≤ m → (∃ c, m = 2 ^ c) → 2 ∣ m → padded_size 5 2 ≤ m) ∧
     (∀ i, 5 ≤ i → i < padded_size 5 2 →
       (padWithSentinel [4, 1, 3, 2, 5] (padded_size 5 2)).getD i 0 = INT_MAX) ∧
     (∀ r, r < 2 →
       ((scatterBlocks (padWithSentinel [4, 1, 3, 2, 5] (padded_size 5 2)) 2
           (padded_size 5 2 / 2)).getD r []).length = padded_size 5 2 / 2)) :=
  ⟨⟨by decide, by decide, by decide⟩,
   C9_partitioner_padded_size [4, 1, 3, 2, 5] 5 2 1 (by decide) (by decide) (by decide)⟩

/-- C10 (amended): the two validating executables detect precondition
violations exactly.  mpi_bitonic.c's check accepts a positive size and
process count iff the size is a power of two, the process count is a power
of two, and the size is divisible by the process count; openmp_bitonic.c's
check accepts a positive size iff it is a power of two.  (bitonic_openmp.c
performs no such check: it pads non-power-of-two inputs and sorts anyway —
see its counterexample.) -/
theorem C10_amended_validation (total_size num_procs size : Nat)
    (ht : 0 < total_size) (hp : 0 < num_procs) (hs : 0 < size) :
    (mpi_validate total_size num_procs = true ↔
      (∃ a, total_size = 2 ^ a) ∧ (∃ b, num_procs = 2 ^ b) ∧
        num_procs ∣ total_size) ∧
    (openmp_bitonic_validate size = true ↔ ∃ a, size = 2 ^ a) :=
  ⟨mpi_validate_iff total_size num_procs ht hp, openmp_bitonic_validate_iff size hs⟩

theorem C10_amended_validation_witness :
    ((0 : Nat) < 8 ∧ (0 : Nat) < 2 ∧ (0 : Nat) < 5) ∧
    ((mpi_validate 8 2 = true ↔
      (∃ a, (8 : Nat) = 2 ^ a) ∧ (∃ b, (2 : Nat) = 2 ^ b) ∧ 2 ∣ 8) ∧
     (openmp_bitonic_validate 5 = true ↔ ∃ a, (5 : Nat) = 2 ^ a)) :=
  ⟨⟨by decide, by decide, by decide⟩,
   C10_amended_validation 8 2 5 (by decide) (by decide) (by decide)⟩
